import Mathlib

/-!
Verification development for the parcel-layout block-generation engine
(`units.py`, `utils.py`, `block_generator.py`).

The geometry primitives (Rhino curve operations, shapely polygon
conversion, Clipper offsets and booleans) are external collaborators of
the core; they are modelled as an abstract `GeomKernel` structure, and
the control flow of the Python source is translated faithfully on top of
it.  Fallible Python code (functions that can raise `ValueError`,
`IndexError`, `TypeError`) is modelled with `Except String`.
-/

namespace ParcelLayout

/-- Tagged parcel classification.  The source dispatches on the runtime
class name (`p.__class__.__name__ == "Lot"`); `units.Road` and plain
`units.Parcel` are the other possible classes. -/
inductive ParcelKind : Type
  | lot
  | road
  | plain
deriving DecidableEq, Repr

/-- Model of `units.Parcel` / `units.Lot` (units.py lines 14-117): an
outer boundary curve (`region`, possibly `None`), hole curves, the
cadastral key `pnu`, the land-use string `jimok`, and the two derived
flags of `units.Lot`.  The opaque shapefile `record` is omitted: nothing
in the analysed code reads it.  `C` is the type of Rhino curves. -/
structure Parcel (C : Type) where
  region : Option C
  hole_regions : List C
  pnu : String
  jimok : String
  kind : ParcelKind
  is_flag_lot : Bool := false
  has_road_access : Bool := false
deriving DecidableEq, Repr

/-- Model of `units.Block` after successful construction: member lots,
the single boundary curve set by `_set_block_region`, and the donut
flag. -/
structure Block (C : Type) where
  lots : List (Parcel C)
  region : C
  is_donut : Bool
deriving DecidableEq, Repr

/-- Result of `geo.Curve.PlanarClosedCurveRelationship`. -/
inductive RegionContainment : Type
  | disjoint
  | mutualIntersection
  | aInsideB
  | bInsideA
deriving DecidableEq, Repr

/-- Modelled from the spec: the external geometry kernel of §6 (Rhino,
shapely, Clipper via ghpythonlib), plus the weld tolerance `RAW_TOL`
from `constants.py`, which is not under src/.  `C` is the type of Rhino
curves, `P` the type of shapely polygons, `D` the type of offset
distances.  The spec describes `RAW_TOL` as the small fixed nonzero weld
tolerance ε, recorded here by the `rawTolNonzero` field (`distIsZero`
models Python float truthiness `not dist`).  `toShapely` packages
`BlockGenerator._rhino_curve_to_shapely_polygon`'s float-coordinate body
(vertex extraction, rounding, dedup, closing, the minimum-vertex check
and the `Polygon` constructor), returning `none` whenever the Python
function returns `None` for a non-`None` curve.  `offsetContour` and
`offsetHoles` are the `contour` and `holes` outputs of
`ghcomp.ClipperComponents.PolylineOffset` at a given distance;
`createBooleanUnion` is `geo.Curve.CreateBooleanUnion` at `TOL`;
`clipperUnion` is `ghcomp.ClipperComponents.PolylineBoolean` in union
mode; `planarRel` is `geo.Curve.PlanarClosedCurveRelationship` at `TOL`;
`intersects` is the shapely pairwise `intersects` predicate used by
`gpd.sjoin`. -/
structure GeomKernel (C P D : Type) where
  rawTol : D
  distIsZero : D → Bool
  rawTolNonzero : distIsZero rawTol = false
  toShapely : C → List C → Option P
  intersects : P → P → Bool
  offsetContour : List C → D → List C
  offsetHoles : List C → D → List C
  createBooleanUnion : List C → List C
  clipperUnion : List C → List C → List C
  planarRel : C → C → RegionContainment

variable {C P D : Type}

/-- Model of `utils.is_region_inside` (utils.py lines 147-155): the
planar relationship of the two closed curves is exactly `AInsideB`. -/
def is_region_inside (K : GeomKernel C P D) (inner_region outer_region : C) : Bool :=
  decide (K.planarRel inner_region outer_region = RegionContainment.aInsideB)

/-- Model of `utils.offset_region_outward` (utils.py lines 290-307): a
falsy distance returns the input unchanged; otherwise the first contour
of the Clipper offset is taken (`contour[0]` raises `IndexError` when
the contour list is empty). -/
def offset_region_outward (K : GeomKernel C P D) (region : C) (dist : D) : Except String C :=
  if K.distIsZero dist then .ok region
  else
    match K.offsetContour [region] dist with
    | [] => .error "IndexError: list index out of range"
    | c :: _ => .ok c

/-- Model of `utils.offset_regions_outward` (utils.py lines 273-287) on
a list input: each region is offset outward independently. -/
def offset_regions_outward (K : GeomKernel C P D) (regions : List C) (dist : D) :
    Except String (List C) :=
  regions.mapM (fun r => offset_region_outward K r dist)

/-- Model of `utils.offset_regions_inward` (utils.py lines 244-270) at
its single call site (`Block._set_block_region`), where the argument is
one closed curve.  With a falsy distance the Python function returns the
bare curve and the caller's `len()` then raises `TypeError`; that error
is surfaced here at the function boundary (the branch is dead because
`RAW_TOL` is nonzero).  Otherwise the `holes` output of the Clipper
offset is returned, filtered - when it has two or more entries - to the
curves lying inside the original region. -/
def offset_regions_inward (K : GeomKernel C P D) (region : C) (dist : D) :
    Except String (List C) :=
  if K.distIsZero dist then .error "TypeError: object of type Curve has no len()"
  else
    let result := K.offsetHoles [region] dist
    if result.length < 2 then .ok result
    else .ok (result.filter (fun crv => is_region_inside K crv region))

/-- Model of `utils.RegionBool._polyline_boolean` in union mode
(utils.py lines 310-342): raises `ValueError` when either operand list
is empty, otherwise returns the Clipper boolean result as a list. -/
def polyline_boolean_union (K : GeomKernel C P D) (crvs0 crvs1 : List C) :
    Except String (List C) :=
  if crvs0.isEmpty || crvs1.isEmpty then .error "Check input values"
  else .ok (K.clipperUnion crvs0 crvs1)

/-- Model of `utils.get_union_regions` (utils.py lines 345-368): empty
and singleton inputs are returned as-is; otherwise
`geo.Curve.CreateBooleanUnion` is tried, with a pairwise Clipper union
fold as the fallback when it yields nothing. -/
def get_union_regions (K : GeomKernel C P D) (regions : List C) : Except String (List C) :=
  match regions with
  | [] => .ok []
  | [r] => .ok [r]
  | r :: rest =>
    let u := K.createBooleanUnion (r :: rest)
    if u.isEmpty then
      rest.foldlM (fun acc region => polyline_boolean_union K acc [region]) [r]
    else .ok u

/-- Inner loop of `Block._get_out_region` (units.py lines 154-161): the
candidate at position `i` contains every other region in the
(position-indexed) list.  Positions model Python object identity
(`other is candidate`); the regions handed to this test are the distinct
result objects of the union step. -/
def contains_all_others (K : GeomKernel C P D) (indexed : List (Nat × C)) (i : Nat) (cand : C) :
    Bool :=
  indexed.all (fun other => other.1 == i || is_region_inside K other.2 cand)

/-- Model of `Block._get_out_region` (units.py lines 147-169): a
singleton list is returned directly; otherwise the first region
containing every other region is selected, and a `ValueError` is raised
when there is none. -/
def get_out_region (K : GeomKernel C P D) (regions : List C) : Except String C :=
  match regions with
  | [r] => .ok r
  | _ =>
    match regions.enum.find? (fun ic => contains_all_others K regions.enum ic.1 ic.2) with
    | some ic => .ok ic.2
    | none => .error "no single outer region containing every region"

/-- Tail of `Block._set_block_region` (units.py lines 141-145): the
selected contour is offset inward by `RAW_TOL`; a non-singleton result
raises `ValueError`, otherwise the single curve becomes the block region
and the donut flag is kept. -/
def finish_block_region (K : GeomKernel C P D) (contour : C) (is_donut : Bool) :
    Except String (C × Bool) := do
  let result ← offset_regions_inward K contour K.rawTol
  match result with
  | [r] => .ok (r, is_donut)
  | _ => .error "block region is not a single curve after offset"

/-- The `lot_regions` list of `Block._set_block_region` (units.py line
131): the non-`None` boundary curves of the member lots. -/
def lot_regions_of (lots : List (Parcel C)) : List C :=
  lots.filterMap (fun lot => lot.region)

/-- Model of `Block._set_block_region` (units.py lines 128-145),
returning the pair (region, is_donut) that the constructor stores: the
non-`None` member boundaries are offset outward by `RAW_TOL` and
unioned; a single union region is the contour with `is_donut = False`,
any other count goes through `_get_out_region` with `is_donut = True`;
the contour is then finished by the inward offset. -/
def set_block_region (K : GeomKernel C P D) (lots : List (Parcel C)) :
    Except String (C × Bool) := do
  let offset_regions ← offset_regions_outward K (lot_regions_of lots) K.rawTol
  let block_regions ← get_union_regions K offset_regions
  match block_regions with
  | [r] => finish_block_region K r false
  | _ => do
    let r ← get_out_region K block_regions
    finish_block_region K r true

/-- Model of `units.Block.__init__` (units.py lines 120-126): the
constructor stores the member lots and runs `_set_block_region`;
exceptions raised there abort construction. -/
def Block.construct (K : GeomKernel C P D) (lots : List (Parcel C)) :
    Except String (Block C) :=
  (set_block_region K lots).map (fun rd => { lots := lots, region := rd.1, is_donut := rd.2 })

/-- Model of `BlockGenerator._rhino_curve_to_shapely_polygon`
(block_generator.py lines 29-85) at its interface: `None` input yields
`None`; the float-coordinate body is the kernel's `toShapely`. -/
def rhino_curve_to_shapely_polygon (K : GeomKernel C P D) (region_curve : Option C)
    (hole_curves : List C) : Option P :=
  match region_curve with
  | none => none
  | some c => K.toShapely c hole_curves

/-- The rows of the GeoDataFrame built in `_create_blocks_from_lots`
(block_generator.py lines 99-113): the pnu and polygon of every lot
whose boundary converts to a valid shapely polygon, in input order. -/
def valid_entries (K : GeomKernel C P D) (lots : List (Parcel C)) : List (String × P) :=
  lots.filterMap (fun lot =>
    (rhino_curve_to_shapely_polygon K lot.region lot.hole_regions).map (fun p => (lot.pnu, p)))

/-- The `pnu_list` of `_create_blocks_from_lots`: ids of the lots with a
valid polygon, in input order. -/
def valid_pnus (K : GeomKernel C P D) (lots : List (Parcel C)) : List String :=
  (valid_entries K lots).map (fun e => e.1)

/-- Python `tuple(sorted((a, b)))` on two strings. -/
def sortPair (a b : String) : String × String :=
  if a ≤ b then (a, b) else (b, a)

/-- Model of the `gpd.sjoin` + self-pair filter + sorted-tuple steps
(block_generator.py lines 117-128): every ordered pair of valid rows
whose polygons intersect and whose pnus differ yields its sorted pnu
pair.  The spatial index of `sjoin` only prunes candidates and never
decides adjacency, so it is not modelled. -/
def sjoin_pairs (K : GeomKernel C P D) (entries : List (String × P)) :
    List (String × String) :=
  entries.flatMap (fun a =>
    entries.filterMap (fun b =>
      if a.1 != b.1 && K.intersects a.2 b.2 then some (sortPair a.1 b.1) else none))

/-- Deduplication keeping first occurrences, the insertion behaviour of
Python's `set.add` / `dict` keys (used for the `edges` set and for
`G.add_nodes_from`). -/
def dedupAux [DecidableEq α] (seen : List α) : List α → List α
  | [] => []
  | a :: as => if a ∈ seen then dedupAux seen as else a :: dedupAux (a :: seen) as

/-- Deduplication of a list keeping the first occurrence of each value. -/
def dedupKeepFirst [DecidableEq α] (l : List α) : List α :=
  dedupAux [] l

/-- Lexicographic order on string pairs, used to fix a canonical
iteration order for the Python `edges` set (whose hash-based iteration
order is unspecified but irrelevant to the resulting graph). -/
def pairLe (x y : String × String) : Prop :=
  x.1 < y.1 ∨ (x.1 = y.1 ∧ x.2 ≤ y.2)

instance : DecidableRel pairLe := fun x y => by
  unfold pairLe; infer_instance

instance : IsTotal (String × String) pairLe := by
  constructor
  intro x y
  rcases lt_trichotomy x.1 y.1 with h | h | h
  · exact Or.inl (Or.inl h)
  · rcases le_total x.2 y.2 with h2 | h2
    · exact Or.inl (Or.inr ⟨h, h2⟩)
    · exact Or.inr (Or.inr ⟨h.symm, h2⟩)
  · exact Or.inr (Or.inl h)

instance : IsTrans (String × String) pairLe := by
  constructor
  intro x y z hxy hyz
  rcases hxy with h1 | ⟨e1, l1⟩
  · rcases hyz with h2 | ⟨e2, _⟩
    · exact Or.inl (h1.trans h2)
    · exact Or.inl (e2 ▸ h1)
  · rcases hyz with h2 | ⟨e2, l2⟩
    · exact Or.inl (e1 ▸ h2)
    · exact Or.inr ⟨e1.trans e2, l1.trans l2⟩

instance : IsAntisymm (String × String) pairLe := by
  constructor
  intro x y hxy hyx
  rcases hxy with h1 | ⟨e1, l1⟩
  · rcases hyx with h2 | ⟨e2, _⟩
    · exact absurd (h1.trans h2) (lt_irrefl _)
    · exact absurd (e2 ▸ h1) (lt_irrefl _)
  · rcases hyx with h2 | ⟨e2, l2⟩
    · exact absurd (e1 ▸ h2) (lt_irrefl _)
    · exact Prod.ext e1 (le_antisymm l1 l2)

/-- The edge list of the NetworkX graph, canonically ordered: the
deduplicated sorted-pair set emitted by `sjoin_pairs`, listed in
lexicographic order.  (Python iterates the `edges` set in unspecified
hash order; the graph built from it does not depend on that order.) -/
def edge_list (K : GeomKernel C P D) (entries : List (String × P)) :
    List (String × String) :=
  List.insertionSort pairLe (dedupKeepFirst (sjoin_pairs K entries))

/-- One union-find merge step on the current group list for an edge
`(a, b)`: the group containing `a` and the group containing `b` are
located; if both exist and differ, they are replaced by their
concatenation (appended at the end).  Folding this over all edges
computes the connected components that `nx.connected_components`
yields. -/
def mergeGroups (groups : List (List String)) (e : String × String) :
    List (List String) :=
  match groups.find? (fun g => decide (e.1 ∈ g)), groups.find? (fun g => decide (e.2 ∈ g)) with
  | some ga, some gb =>
    if ga = gb then groups
    else groups.filter (fun g => decide (g ≠ ga ∧ g ≠ gb)) ++ [ga ++ gb]
  | _, _ => groups

/-- Emission of the computed components in the order
`nx.connected_components` yields them: components appear in the order of
their first member in the node list (NetworkX iterates the graph's
insertion-ordered node dict), and each component is listed with its
members in node order (Python iterates each component `set` in
unspecified hash order; node order is the canonical stand-in). -/
def emitClusters (nodes : List String) (groups : List (List String)) :
    List (List String) :=
  (dedupKeepFirst (nodes.filterMap (fun v => groups.find? (fun g => decide (v ∈ g))))).map
    (fun g => nodes.filter (fun v => decide (v ∈ g)))

/-- Model of `list(nx.connected_components(G))` for the graph with the
given insertion-ordered node list and edge list (block_generator.py
lines 131-137). -/
def connected_components (nodes : List String) (edges : List (String × String)) :
    List (List String) :=
  emitClusters nodes (edges.foldl mergeGroups (nodes.map (fun p => [p])))

/-- Model of the `lot_map` dict lookup (block_generator.py line 96):
Python dict comprehension keeps the last binding of a duplicated key. -/
def lot_map_get (lots : List (Parcel C)) (p : String) : Option (Parcel C) :=
  (lots.filter (fun l => l.pnu == p)).getLast?

/-- Model of `BlockGenerator._create_blocks_from_lots`
(block_generator.py lines 87-145): empty input yields no blocks; when no
lot converts to a valid polygon, one singleton `Block` per input lot is
attempted; otherwise the adjacency graph over the valid pnus is built,
its connected components are extracted, and one `Block` is constructed
per component.  A `ValueError` raised by any `Block` constructor
propagates (there is no try/except around the loop). -/
def create_blocks_from_lots (K : GeomKernel C P D) (lots : List (Parcel C)) :
    Except String (List (Block C)) :=
  if lots.isEmpty then .ok []
  else
    let entries := valid_entries K lots
    let pnu_list := entries.map (fun e => e.1)
    if pnu_list.isEmpty then
      lots.mapM (fun lot => Block.construct K [lot])
    else
      let clusters := connected_components (dedupKeepFirst pnu_list) (edge_list K entries)
      clusters.mapM (fun grp => Block.construct K (grp.filterMap (fun p => lot_map_get lots p)))

/-- Model of `BlockGenerator.generate` (block_generator.py lines 23-27):
parcels whose runtime class is not `Lot` are filtered out, then
`_create_blocks_from_lots` runs. -/
def generate (K : GeomKernel C P D) (parcels : List (Parcel C)) :
    Except String (List (Block C)) :=
  create_blocks_from_lots K (parcels.filter (fun p => decide (p.kind = ParcelKind.lot)))

/-- Member ids of a block. -/
def member_pnus (b : Block C) : List String :=
  b.lots.map (fun l => l.pnu)

/-- The closed set of `ValueError` / `IndexError` / `TypeError` messages
that the modelled pipeline can raise.  None of them depends on the
processed lots.  The strings are fixed English stand-ins for the literal
messages of the source (which writes its two `ValueError` messages in
Korean); only their constancy matters. -/
def fatal_error_messages : List String :=
  ["IndexError: list index out of range",
   "Check input values",
   "no single outer region containing every region",
   "TypeError: object of type Curve has no len()",
   "block region is not a single curve after offset"]

/-! Concrete test kernels over `Nat` tokens and small test parcels, used
to evaluate the pipeline on closed inputs. -/

/-- Test kernel whose union step always reports the two regions 10 and
20, region 20 lying inside region 10; offsets are identities. -/
def donutKernel : GeomKernel Nat Nat Nat where
  rawTol := 1
  distIsZero := fun d => d == 0
  rawTolNonzero := rfl
  toShapely := fun c _ => some c
  intersects := fun _ _ => true
  offsetContour := fun l _ => l
  offsetHoles := fun l _ => l
  createBooleanUnion := fun _ => [10, 20]
  clipperUnion := fun a b => a ++ b
  planarRel := fun x y =>
    if x = 20 ∧ y = 10 then RegionContainment.aInsideB else RegionContainment.disjoint

/-- Test kernel where every polygon converts, no two polygons intersect,
and every offset or union is the identity on its input list. -/
def isolatedKernel : GeomKernel Nat Nat Nat where
  rawTol := 1
  distIsZero := fun d => d == 0
  rawTolNonzero := rfl
  toShapely := fun c _ => some c
  intersects := fun _ _ => false
  offsetContour := fun l _ => l
  offsetHoles := fun l _ => l
  createBooleanUnion := fun l => l
  clipperUnion := fun a b => a ++ b
  planarRel := fun _ _ => RegionContainment.disjoint

/-- Test kernel like `isolatedKernel` except that the inward offset of
region 1 vanishes, so the cluster containing boundary 1 fails its
singularity check while other clusters succeed. -/
def failKernel : GeomKernel Nat Nat Nat where
  rawTol := 1
  distIsZero := fun d => d == 0
  rawTolNonzero := rfl
  toShapely := fun c _ => some c
  intersects := fun _ _ => false
  offsetContour := fun l _ => l
  offsetHoles := fun l _ => if l = [1] then [] else l
  createBooleanUnion := fun l => l
  clipperUnion := fun a b => a ++ b
  planarRel := fun _ _ => RegionContainment.disjoint

/-- Test kernel where no boundary converts to a shapely polygon but the
curve-level offsets and unions behave like identities. -/
def allInvalidKernel : GeomKernel Nat Nat Nat where
  rawTol := 1
  distIsZero := fun d => d == 0
  rawTolNonzero := rfl
  toShapely := fun _ _ => none
  intersects := fun _ _ => false
  offsetContour := fun l _ => l
  offsetHoles := fun l _ => l
  createBooleanUnion := fun l => l
  clipperUnion := fun a b => a ++ b
  planarRel := fun _ _ => RegionContainment.disjoint

/-- Test kernel whose (deliberately asymmetric) intersection predicate
relates polygon 1 to polygon 2 in one direction only, exercising the
deduplication of (a,b)/(b,a) sjoin rows. -/
def adjKernel : GeomKernel Nat Nat Nat where
  rawTol := 1
  distIsZero := fun d => d == 0
  rawTolNonzero := rfl
  toShapely := fun c _ => some c
  intersects := fun x y => (x == 1) && (y == 2)
  offsetContour := fun l _ => l
  offsetHoles := fun l _ => l
  createBooleanUnion := fun l => l
  clipperUnion := fun a b => a ++ b
  planarRel := fun _ _ => RegionContainment.disjoint

/-- Test lot with boundary token 1. -/
def lotA : Parcel Nat :=
  { region := some 1, hole_regions := [], pnu := "a", jimok := "L", kind := ParcelKind.lot }

/-- Test lot with boundary token 2. -/
def lotB : Parcel Nat :=
  { region := some 2, hole_regions := [], pnu := "b", jimok := "L", kind := ParcelKind.lot }

/-- Test lot with boundary token 1 and pnu x. -/
def lotX : Parcel Nat :=
  { region := some 1, hole_regions := [], pnu := "x", jimok := "L", kind := ParcelKind.lot }

/-- Test lot with boundary token 2 and pnu y. -/
def lotY : Parcel Nat :=
  { region := some 2, hole_regions := [], pnu := "y", jimok := "L", kind := ParcelKind.lot }

/-- Test lot whose boundary curve is missing (`None`). -/
def invalidLot : Parcel Nat :=
  { region := none, hole_regions := [], pnu := "z", jimok := "L", kind := ParcelKind.lot }

/-! General helpers about `Except`, monadic list traversals, and the
first-occurrence deduplication. -/

theorem except_bind_ok {ε α β : Type} (a : α) (g : α → Except ε β) :
    (Except.ok a >>= g : Except ε β) = g a := rfl

theorem except_bind_error {ε α β : Type} (e : ε) (g : α → Except ε β) :
    (Except.error e >>= g : Except ε β) = Except.error e := rfl

theorem except_map_ok {ε α β : Type} {f : α → β} {x : Except ε α} {b : β}
    (h : x.map f = .ok b) : ∃ a, x = .ok a ∧ b = f a := by
  cases x with
  | error e => exact absurd h (by simp [Except.map])
  | ok a => exact ⟨a, rfl, by simpa [Except.map] using h.symm⟩

theorem except_map_error {ε α β : Type} {f : α → β} {x : Except ε α} {e : ε}
    (h : x.map f = .error e) : x = .error e := by
  cases x with
  | error e2 => simpa [Except.map] using h
  | ok a => exact absurd h (by simp [Except.map])

theorem mapM_ok_forall {ε α β : Type} {f : α → Except ε β} :
    ∀ {l : List α} {bs : List β}, l.mapM f = .ok bs → ∀ a ∈ l, ∃ b, f a = .ok b := by
  intro l
  induction l with
  | nil => simp
  | cons a t ih =>
    intro bs h x hx
    rw [List.mapM_cons] at h
    cases hfa : f a with
    | error e => rw [hfa, except_bind_error] at h; exact absurd h (by simp)
    | ok b =>
      rw [hfa, except_bind_ok] at h
      cases hmt : t.mapM f with
      | error e => rw [hmt, except_bind_error] at h; exact absurd h (by simp)
      | ok bt =>
        rcases List.mem_cons.mp hx with rfl | hxt
        · exact ⟨b, hfa⟩
        · exact ih hmt x hxt

theorem mapM_ok_mem {ε α β : Type} {f : α → Except ε β} :
    ∀ {l : List α} {bs : List β}, l.mapM f = .ok bs → ∀ b ∈ bs, ∃ a ∈ l, f a = .ok b := by
  intro l
  induction l with
  | nil =>
    intro bs h b hb
    simp only [List.mapM_nil] at h
    cases h
    simp at hb
  | cons a t ih =>
    intro bs h b hb
    rw [List.mapM_cons] at h
    cases hfa : f a with
    | error e => rw [hfa, except_bind_error] at h; exact absurd h (by simp)
    | ok b0 =>
      rw [hfa, except_bind_ok] at h
      cases hmt : t.mapM f with
      | error e => rw [hmt, except_bind_error] at h; exact absurd h (by simp)
      | ok bt =>
        rw [hmt, except_bind_ok] at h
        have hbs : bs = b0 :: bt := by
          have : (Except.ok (b0 :: bt) : Except ε (List β)) = .ok bs := h
          cases this; rfl
        subst hbs
        rcases List.mem_cons.mp hb with rfl | hbt
        · exact ⟨a, List.mem_cons_self a t, hfa⟩
        · rcases ih hmt b hbt with ⟨x, hx, hfx⟩
          exact ⟨x, List.mem_cons_of_mem a hx, hfx⟩

theorem mapM_ok_map {ε α β γ : Type} {f : α → Except ε β} {h : β → γ} {g : α → γ} :
    ∀ {l : List α} {bs : List β}, l.mapM f = .ok bs →
      (∀ a ∈ l, ∀ b, f a = .ok b → h b = g a) → bs.map h = l.map g := by
  intro l
  induction l with
  | nil =>
    intro bs hm _
    simp only [List.mapM_nil] at hm
    cases hm
    rfl
  | cons a t ih =>
    intro bs hm hhg
    rw [List.mapM_cons] at hm
    cases hfa : f a with
    | error e => rw [hfa, except_bind_error] at hm; exact absurd hm (by simp)
    | ok b0 =>
      rw [hfa, except_bind_ok] at hm
      cases hmt : t.mapM f with
      | error e => rw [hmt, except_bind_error] at hm; exact absurd hm (by simp)
      | ok bt =>
        rw [hmt, except_bind_ok] at hm
        have hbs : bs = b0 :: bt := by
          have : (Except.ok (b0 :: bt) : Except ε (List β)) = .ok bs := hm
          cases this; rfl
        subst hbs
        have h1 : h b0 = g a := hhg a (List.mem_cons_self a t) b0 hfa
        have h2 : bt.map h = t.map g :=
          ih hmt (fun x hx b hb => hhg x (List.mem_cons_of_mem a hx) b hb)
        simp [h1, h2]

theorem mapM_ok_countP {ε α β : Type} {f : α → Except ε β} {q : β → Bool} {p : α → Bool} :
    ∀ {l : List α} {bs : List β}, l.mapM f = .ok bs →
      (∀ a ∈ l, ∀ b, f a = .ok b → q b = p a) → bs.countP q = l.countP p := by
  intro l bs hm hqp
  have hmap : bs.map q = l.map p := mapM_ok_map hm hqp
  have h1 : bs.countP q = (bs.map q).countP (fun x => x) :=
    (List.countP_map (fun x => x) q bs).symm
  have h2 : l.countP p = (l.map p).countP (fun x => x) :=
    (List.countP_map (fun x => x) p l).symm
  rw [h1, h2, hmap]

theorem mapM_ok_of_forall {ε α β : Type} {f : α → Except ε β} :
    ∀ {l : List α}, (∀ a ∈ l, ∃ b, f a = .ok b) →
      l.mapM f = .ok (l.filterMap (fun a => (f a).toOption)) := by
  intro l
  induction l with
  | nil => intro _; rfl
  | cons a t ih =>
    intro hall
    rcases hall a (List.mem_cons_self a t) with ⟨b, hb⟩
    have ht := ih (fun x hx => hall x (List.mem_cons_of_mem a hx))
    rw [List.mapM_cons, hb, except_bind_ok, ht, except_bind_ok]
    simp only [List.filterMap_cons, hb, Except.toOption]
    rfl

theorem mapM_error_mem {ε α β : Type} {f : α → Except ε β} :
    ∀ {l : List α} {e : ε}, l.mapM f = .error e → ∃ a ∈ l, f a = .error e := by
  intro l
  induction l with
  | nil => intro e h; exact absurd h (by simp [List.mapM_nil]; exact fun h => by cases h)
  | cons a t ih =>
    intro e h
    rw [List.mapM_cons] at h
    cases hfa : f a with
    | error e2 =>
      rw [hfa, except_bind_error] at h
      cases h
      exact ⟨a, List.mem_cons_self a t, hfa⟩
    | ok b =>
      rw [hfa, except_bind_ok] at h
      cases hmt : t.mapM f with
      | error e2 =>
        rw [hmt, except_bind_error] at h
        cases h
        rcases ih hmt with ⟨x, hx, hfx⟩
        exact ⟨x, List.mem_cons_of_mem a hx, hfx⟩
      | ok bt =>
        rw [hmt, except_bind_ok] at h
        exact absurd h (by intro hc; rw [show (pure (b :: bt) : Except ε (List β)) = .ok (b :: bt) from rfl] at hc; cases hc)

theorem foldlM_error_mem {ε α β : Type} {f : β → α → Except ε β} :
    ∀ {l : List α} {init : β} {e : ε}, l.foldlM f init = .error e →
      ∃ acc a, a ∈ l ∧ f acc a = .error e := by
  intro l
  induction l with
  | nil => intro init e h; exact absurd h (by intro h; cases h)
  | cons a t ih =>
    intro init e h
    rw [List.foldlM_cons] at h
    cases hfa : f init a with
    | error e2 =>
      rw [hfa, except_bind_error] at h
      cases h
      exact ⟨init, a, List.mem_cons_self a t, hfa⟩
    | ok b =>
      rw [hfa, except_bind_ok] at h
      rcases ih h with ⟨acc, x, hx, hfx⟩
      exact ⟨acc, x, List.mem_cons_of_mem a hx, hfx⟩

theorem mem_dedupAux {α : Type} [DecidableEq α] {a : α} :
    ∀ {l seen : List α}, a ∈ dedupAux seen l ↔ a ∈ l ∧ a ∉ seen := by
  intro l
  induction l with
  | nil => simp [dedupAux]
  | cons b t ih =>
    intro seen
    by_cases hb : b ∈ seen
    · simp only [dedupAux, if_pos hb, ih]
      constructor
      · rintro ⟨h1, h2⟩; exact ⟨List.mem_cons_of_mem b h1, h2⟩
      · rintro ⟨h1, h2⟩
        rcases List.mem_cons.mp h1 with rfl | h1
        · exact absurd hb h2
        · exact ⟨h1, h2⟩
    · simp only [dedupAux, if_neg hb, List.mem_cons, ih, List.mem_cons]
      constructor
      · rintro (rfl | ⟨h1, h2⟩)
        · exact ⟨Or.inl rfl, hb⟩
        · exact ⟨Or.inr h1, fun hs => h2 (Or.inr hs)⟩
      · rintro ⟨rfl | h1, h2⟩
        · exact Or.inl rfl
        · by_cases hab : a = b
          · exact Or.inl hab
          · refine Or.inr ⟨h1, fun hs => ?_⟩
            rcases hs with h | h
            · exact hab h
            · exact h2 h

theorem nodup_dedupAux {α : Type} [DecidableEq α] :
    ∀ (l seen : List α), (dedupAux seen l).Nodup := by
  intro l
  induction l with
  | nil => intro seen; simp [dedupAux]
  | cons b t ih =>
    intro seen
    by_cases hb : b ∈ seen
    · simp only [dedupAux, if_pos hb]
      exact ih seen
    · simp only [dedupAux, if_neg hb]
      refine List.Nodup.cons ?_ (ih (b :: seen))
      intro hmem
      exact (mem_dedupAux.mp hmem).2 (List.mem_cons_self b seen)

theorem mem_dedupKeepFirst {α : Type} [DecidableEq α] {a : α} {l : List α} :
    a ∈ dedupKeepFirst l ↔ a ∈ l := by
  simp [dedupKeepFirst, mem_dedupAux]

theorem nodup_dedupKeepFirst {α : Type} [DecidableEq α] (l : List α) :
    (dedupKeepFirst l).Nodup :=
  nodup_dedupAux l []

theorem dedupKeepFirst_perm_of_perm {α : Type} [DecidableEq α] {l1 l2 : List α}
    (h : l1.Perm l2) : (dedupKeepFirst l1).Perm (dedupKeepFirst l2) := by
  refine (List.perm_ext_iff_of_nodup (nodup_dedupKeepFirst l1) (nodup_dedupKeepFirst l2)).mpr ?_
  intro a
  simp [mem_dedupKeepFirst, h.mem_iff]

theorem find?_eq_some_of_unique {α : Type} {p : α → Bool} :
    ∀ {l : List α} {x : α}, x ∈ l → p x = true → (∀ y ∈ l, p y = true → y = x) →
      l.find? p = some x := by
  intro l
  induction l with
  | nil => intro x hx; exact absurd hx (by simp)
  | cons a t ih =>
    intro x hx hpx huniq
    by_cases hpa : p a = true
    · have hax : a = x := huniq a (List.mem_cons_self a t) hpa
      rw [List.find?_cons_of_pos t hpa]
      exact congrArg some hax
    · rw [List.find?_cons_of_neg t hpa]
      have hxt : x ∈ t := by
        rcases List.mem_cons.mp hx with rfl | h
        · exact absurd hpx hpa
        · exact h
      exact ih hxt hpx (fun y hy hpy => huniq y (List.mem_cons_of_mem a hy) hpy)

theorem dedupKeepFirst_eq_self {α : Type} [DecidableEq α] :
    ∀ {l : List α}, l.Nodup → dedupKeepFirst l = l := by
  have aux : ∀ (l seen : List α), l.Nodup → (∀ a ∈ l, a ∉ seen) → dedupAux seen l = l := by
    intro l
    induction l with
    | nil => intro seen _ _; rfl
    | cons b t ih =>
      intro seen hnd hdis
      have hb : b ∉ seen := hdis b (List.mem_cons_self b t)
      simp only [dedupAux, if_neg hb]
      have ht : t.Nodup := hnd.of_cons
      have hdis2 : ∀ a ∈ t, a ∉ b :: seen := by
        intro a ha hmem
        rcases List.mem_cons.mp hmem with rfl | h
        · exact (List.nodup_cons.mp hnd).1 ha
        · exact hdis a (List.mem_cons_of_mem b ha) h
      rw [ih (b :: seen) ht hdis2]
  intro l h
  exact aux l [] h (by simp)

/-! Characterization of Block construction. -/

theorem finish_block_region_ok {K : GeomKernel C P D} {contour : C} {d : Bool} {rd : C × Bool}
    (h : finish_block_region K contour d = .ok rd) :
    rd.2 = d ∧ offset_regions_inward K contour K.rawTol = .ok [rd.1] := by
  unfold finish_block_region at h
  cases hin : offset_regions_inward K contour K.rawTol with
  | error e => rw [hin, except_bind_error] at h; cases h
  | ok inw =>
    rw [hin, except_bind_ok] at h
    match inw, h with
    | [r], h =>
      cases h
      exact ⟨rfl, rfl⟩
    | [], h => cases h
    | r1 :: r2 :: t, h => cases h

theorem construct_lots {K : GeomKernel C P D} {ls : List (Parcel C)} {b : Block C}
    (h : Block.construct K ls = .ok b) : b.lots = ls := by
  rcases except_map_ok h with ⟨rd, _, hb⟩
  rw [hb]

theorem construct_ok_elim {K : GeomKernel C P D} {ls : List (Parcel C)} {b : Block C}
    (h : Block.construct K ls = .ok b) :
    ∃ rd, set_block_region K ls = .ok rd ∧
      b = { lots := ls, region := rd.1, is_donut := rd.2 } := by
  rcases except_map_ok h with ⟨rd, hsb, hb⟩
  exact ⟨rd, hsb, hb⟩

/-- C2: for every non-empty cluster of lots, the Block constructor sets
`isDonut` to `false` when the union of the outward-offset lot boundaries
yields exactly one region, and to `true` whenever the union yields any
other number of regions, even when a single outer region is later
selected as the block contour.  (When the union yields zero regions no
Block is ever constructed, so the statement quantifies over constructed
Blocks.) -/
theorem c2_is_donut_count (K : GeomKernel C P D) (lots : List (Parcel C)) (b : Block C)
    (hb : Block.construct K lots = .ok b) :
    ∃ offs urs,
      offset_regions_outward K (lot_regions_of lots) K.rawTol = .ok offs ∧
      get_union_regions K offs = .ok urs ∧
      b.is_donut = decide (urs.length ≠ 1) := by
  rcases construct_ok_elim hb with ⟨rd, hsb, hbrd⟩
  unfold set_block_region at hsb
  cases ho : offset_regions_outward K (lot_regions_of lots) K.rawTol with
  | error e => rw [ho, except_bind_error] at hsb; cases hsb
  | ok offs =>
    rw [ho, except_bind_ok] at hsb
    cases hu : get_union_regions K offs with
    | error e => rw [hu, except_bind_error] at hsb; cases hsb
    | ok urs =>
      rw [hu, except_bind_ok] at hsb
      refine ⟨offs, urs, rfl, hu, ?_⟩
      have hdonut : b.is_donut = rd.2 := by rw [hbrd]
      match urs, hsb with
      | [r], hsb =>
        have := (finish_block_region_ok hsb).1
        rw [hdonut, this]
        simp
      | [], hsb =>
        rw [show get_out_region K ([] : List C) = .error "no single outer region containing every region" from rfl,
          except_bind_error] at hsb
        cases hsb
      | r1 :: r2 :: t, hsb =>
        cases hgo : get_out_region K (r1 :: r2 :: t) with
        | error e => rw [hgo, except_bind_error] at hsb; cases hsb
        | ok c =>
          rw [hgo, except_bind_ok] at hsb
          have := (finish_block_region_ok hsb).1
          rw [hdonut, this]
          simp

/-- C3: when the union of the expanded lot boundaries yields more than
one region, the constructor selects as outer contour the single region
containing every other region (modelling Python object identity by the
position in the union result), discards the rest, and the cluster fails
with a fatal error when no region contains all others. -/
theorem c3_outer_region (K : GeomKernel C P D) (lots : List (Parcel C)) (offs urs : List C)
    (h1 : offset_regions_outward K (lot_regions_of lots) K.rawTol = .ok offs)
    (h2 : get_union_regions K offs = .ok urs)
    (hlen : 1 < urs.length) :
    ((∀ ic ∈ urs.enum, contains_all_others K urs.enum ic.1 ic.2 = false) →
      Block.construct K lots = .error "no single outer region containing every region") ∧
    (∀ i c, (i, c) ∈ urs.enum → contains_all_others K urs.enum i c = true →
      (∀ jc ∈ urs.enum, contains_all_others K urs.enum jc.1 jc.2 = true → jc = (i, c)) →
      get_out_region K urs = .ok c ∧
      Block.construct K lots = (finish_block_region K c true).map
        (fun rd => { lots := lots, region := rd.1, is_donut := rd.2 })) := by
  match urs, hlen with
  | r1 :: r2 :: t, _ =>
    have hset : set_block_region K lots =
        (get_out_region K (r1 :: r2 :: t)) >>= (fun r => finish_block_region K r true) := by
      unfold set_block_region
      rw [h1, except_bind_ok, h2, except_bind_ok]
    constructor
    · intro hall
      have hfind : (r1 :: r2 :: t).enum.find?
          (fun ic => contains_all_others K (r1 :: r2 :: t).enum ic.1 ic.2) = none := by
        rw [List.find?_eq_none]
        intro ic hic
        rw [hall ic hic]
        simp
      have hgo : get_out_region K (r1 :: r2 :: t) =
          .error "no single outer region containing every region" := by
        unfold get_out_region
        rw [hfind]
      unfold Block.construct
      rw [hset, hgo, except_bind_error]
      rfl
    · intro i c hmem hsat huniq
      have hfind : (r1 :: r2 :: t).enum.find?
          (fun ic => contains_all_others K (r1 :: r2 :: t).enum ic.1 ic.2) = some (i, c) :=
        find?_eq_some_of_unique hmem hsat (fun y hy hpy => huniq y hy hpy)
      have hgo : get_out_region K (r1 :: r2 :: t) = .ok c := by
        unfold get_out_region
        rw [hfind]
      refine ⟨hgo, ?_⟩
      unfold Block.construct
      rw [hset, hgo, except_bind_ok]

/-- C5: the contour obtained after the union step (directly for a
single-region union, through outer-region selection otherwise) is offset
inward by the same `RAW_TOL` distance used for the outward offset; a
non-singleton inward-offset result makes Block construction fail with a
fatal error, and otherwise the single resulting curve becomes the
Block's region. -/
theorem c5_inward_same_distance (K : GeomKernel C P D) (lots : List (Parcel C))
    (offs urs : List C) (contour : C) (d : Bool) (inw : List C)
    (h1 : offset_regions_outward K (lot_regions_of lots) K.rawTol = .ok offs)
    (h2 : get_union_regions K offs = .ok urs)
    (h3 : urs = [contour] ∧ d = false ∨
      urs.length ≠ 1 ∧ get_out_region K urs = .ok contour ∧ d = true)
    (h4 : offset_regions_inward K contour K.rawTol = .ok inw) :
    (inw.length ≠ 1 →
      Block.construct K lots = .error "block region is not a single curve after offset") ∧
    (∀ r, inw = [r] →
      Block.construct K lots = .ok { lots := lots, region := r, is_donut := d }) := by
  have hset : set_block_region K lots = finish_block_region K contour d := by
    unfold set_block_region
    rw [h1, except_bind_ok, h2, except_bind_ok]
    rcases h3 with ⟨rfl, rfl⟩ | ⟨hne, hgo, rfl⟩
    · rfl
    · match urs, hne with
      | [], _ =>
        rw [show get_out_region K ([] : List C) =
          .error "no single outer region containing every region" from rfl] at hgo
        cases hgo
      | [r], hne => exact absurd rfl hne
      | r1 :: r2 :: t, _ =>
        rw [hgo, except_bind_ok]
  constructor
  · intro hne
    unfold Block.construct
    rw [hset]
    unfold finish_block_region
    rw [h4, except_bind_ok]
    match inw, hne with
    | [], _ => rfl
    | [r], hne => exact absurd rfl hne
    | r1 :: r2 :: t, _ => rfl
  · intro r hr
    subst hr
    unfold Block.construct
    rw [hset]
    unfold finish_block_region
    rw [h4, except_bind_ok]
    rfl

/-! Structural lemmas about the generator pipeline. -/

theorem mapM_ok_forall₂ {ε α β : Type} {f : α → Except ε β} :
    ∀ {l : List α} {bs : List β}, l.mapM f = .ok bs →
      List.Forall₂ (fun a b => f a = .ok b) l bs := by
  intro l
  induction l with
  | nil =>
    intro bs h
    simp only [List.mapM_nil] at h
    cases h
    exact List.Forall₂.nil
  | cons a t ih =>
    intro bs h
    rw [List.mapM_cons] at h
    cases hfa : f a with
    | error e => rw [hfa, except_bind_error] at h; cases h
    | ok b =>
      rw [hfa, except_bind_ok] at h
      cases hmt : t.mapM f with
      | error e => rw [hmt, except_bind_error] at h; cases h
      | ok bt =>
        rw [hmt, except_bind_ok] at h
        have hbs : bs = b :: bt := by
          have : (Except.ok (b :: bt) : Except ε (List β)) = .ok bs := h
          cases this; rfl
        subst hbs
        exact List.Forall₂.cons hfa (ih hmt)

theorem filterMap_congr_some {α β : Type} {f : α → Option β} {g : α → β} :
    ∀ {l : List α}, (∀ a ∈ l, f a = some (g a)) → l.filterMap f = l.map g := by
  intro l
  induction l with
  | nil => intro _; rfl
  | cons a t ih =>
    intro hall
    rw [List.filterMap_cons, hall a (List.mem_cons_self a t), List.map_cons,
      ih (fun x hx => hall x (List.mem_cons_of_mem a hx))]

theorem filter_eq_singleton_of_nodup {α : Type} {q : α → Bool} :
    ∀ {l : List α} {a : α}, l.Nodup → a ∈ l → q a = true →
      (∀ b ∈ l, q b = true → b = a) → l.filter q = [a] := by
  intro l
  induction l with
  | nil => intro a _ ha; exact absurd ha (by simp)
  | cons x t ih =>
    intro a hnd ha hqa huniq
    rcases List.mem_cons.mp ha with rfl | hat
    · rw [List.filter_cons, if_pos (by rw [hqa])]
      have ht : t.filter q = [] := by
        rw [List.filter_eq_nil_iff]
        intro b hb hqb
        have hba : b = a := huniq b (List.mem_cons_of_mem a hb) hqb
        subst hba
        exact (List.nodup_cons.mp hnd).1 hb
      rw [ht]
    · have hqx : q x = false := by
        cases hv : q x
        · rfl
        · have := huniq x (List.mem_cons_self x t) hv
          subst this
          exact absurd hat (List.nodup_cons.mp hnd).1
      rw [List.filter_cons, if_neg (by rw [hqx]; simp)]
      exact ih (List.nodup_cons.mp hnd).2 hat hqa
        (fun b hb hqb => huniq b (List.mem_cons_of_mem x hb) hqb)

theorem map_nodup_inj {α β : Type} {f : α → β} :
    ∀ {l : List α}, (l.map f).Nodup → ∀ a ∈ l, ∀ b ∈ l, f a = f b → a = b := by
  intro l
  induction l with
  | nil => intro _ a ha; exact absurd ha (by simp)
  | cons x t ih =>
    intro hnd a ha b hb hfab
    rw [List.map_cons, List.nodup_cons] at hnd
    rcases List.mem_cons.mp ha with rfl | hat
    · rcases List.mem_cons.mp hb with rfl | hbt
      · rfl
      · exact absurd (hfab ▸ List.mem_map_of_mem f hbt) hnd.1
    · rcases List.mem_cons.mp hb with rfl | hbt
      · exact absurd (hfab ▸ List.mem_map_of_mem f hat) hnd.1
      · exact ih hnd.2 a hat b hbt hfab

theorem valid_pnus_subset {K : GeomKernel C P D} {lots : List (Parcel C)} :
    ∀ p ∈ valid_pnus K lots, p ∈ lots.map (fun l => l.pnu) := by
  intro p hp
  rw [valid_pnus, List.mem_map] at hp
  rcases hp with ⟨e, he, hpe⟩
  rw [valid_entries, List.mem_filterMap] at he
  rcases he with ⟨l, hl, hfl⟩
  cases hconv : rhino_curve_to_shapely_polygon K l.region l.hole_regions with
  | none => rw [hconv] at hfl; cases hfl
  | some poly =>
    rw [hconv] at hfl
    cases hfl
    exact hpe ▸ List.mem_map_of_mem (fun l => l.pnu) hl

theorem valid_pnus_mem_of_valid {K : GeomKernel C P D} {lots : List (Parcel C)}
    {l : Parcel C} (hl : l ∈ lots) {poly : P}
    (hconv : rhino_curve_to_shapely_polygon K l.region l.hole_regions = some poly) :
    l.pnu ∈ valid_pnus K lots := by
  rw [valid_pnus, List.mem_map]
  refine ⟨(l.pnu, poly), ?_, rfl⟩
  rw [valid_entries, List.mem_filterMap]
  exact ⟨l, hl, by rw [hconv]; rfl⟩

theorem valid_pnus_elim {K : GeomKernel C P D} {lots : List (Parcel C)} {p : String}
    (hp : p ∈ valid_pnus K lots) :
    ∃ l ∈ lots, l.pnu = p ∧
      ∃ poly, rhino_curve_to_shapely_polygon K l.region l.hole_regions = some poly := by
  rw [valid_pnus, List.mem_map] at hp
  rcases hp with ⟨e, he, hpe⟩
  rw [valid_entries, List.mem_filterMap] at he
  rcases he with ⟨l, hl, hfl⟩
  cases hconv : rhino_curve_to_shapely_polygon K l.region l.hole_regions with
  | none => rw [hconv] at hfl; cases hfl
  | some poly =>
    rw [hconv] at hfl
    cases hfl
    exact ⟨l, hl, hpe, poly, hconv⟩

theorem lot_map_get_some {lots : List (Parcel C)} {p : String}
    (h : p ∈ lots.map (fun l => l.pnu)) :
    ∃ l, lot_map_get lots p = some l ∧ l.pnu = p := by
  rcases List.mem_map.mp h with ⟨l0, hl0, hpnu⟩
  have hmemf : l0 ∈ lots.filter (fun l => l.pnu == p) := by
    rw [List.mem_filter]
    exact ⟨hl0, by rw [hpnu]; simp⟩
  cases hlast : (lots.filter (fun l => l.pnu == p)).getLast? with
  | none =>
    rw [List.getLast?_eq_none_iff] at hlast
    rw [hlast] at hmemf
    exact absurd hmemf (by simp)
  | some l =>
    have hlmem : l ∈ lots.filter (fun l => l.pnu == p) :=
      List.mem_of_getLast?_eq_some hlast
    rw [List.mem_filter] at hlmem
    exact ⟨l, hlast, by simpa using hlmem.2⟩

theorem filterMap_lot_map_get_pnus {lots : List (Parcel C)} :
    ∀ {grp : List String}, (∀ p ∈ grp, p ∈ lots.map (fun l => l.pnu)) →
      (grp.filterMap (fun p => lot_map_get lots p)).map (fun l => l.pnu) = grp := by
  intro grp
  induction grp with
  | nil => intro _; rfl
  | cons p t ih =>
    intro hall
    rcases lot_map_get_some (hall p (List.mem_cons_self p t)) with ⟨l, hl, hpnu⟩
    rw [List.filterMap_cons, hl, List.map_cons, hpnu,
      ih (fun x hx => hall x (List.mem_cons_of_mem p hx))]

theorem create_blocks_main {K : GeomKernel C P D} {lots : List (Parcel C)}
    (hvalid : valid_pnus K lots ≠ []) :
    create_blocks_from_lots K lots =
      (connected_components (dedupKeepFirst (valid_pnus K lots))
        (edge_list K (valid_entries K lots))).mapM
        (fun grp => Block.construct K (grp.filterMap (fun p => lot_map_get lots p))) := by
  have hlne : lots ≠ [] := by
    intro hl
    exact hvalid (by rw [hl]; rfl)
  have hempty : lots.isEmpty = false := by
    cases lots with
    | nil => exact absurd rfl hlne
    | cons a t => rfl
  have hpne : ((valid_entries K lots).map (fun e => e.1)).isEmpty = false := by
    cases hv : (valid_entries K lots).map (fun e => e.1) with
    | nil => exact absurd hv hvalid
    | cons a t => rfl
  unfold create_blocks_from_lots
  rw [hempty]
  simp only [Bool.false_eq_true, if_false, hpne]
  rfl

theorem create_blocks_fallback {K : GeomKernel C P D} {lots : List (Parcel C)}
    (hne : lots ≠ [])
    (hinv : ∀ lot ∈ lots,
      rhino_curve_to_shapely_polygon K lot.region lot.hole_regions = none) :
    create_blocks_from_lots K lots = lots.mapM (fun lot => Block.construct K [lot]) := by
  have hempty : lots.isEmpty = false := by
    cases lots with
    | nil => exact absurd rfl hne
    | cons a t => rfl
  have hentries : valid_entries K lots = [] := by
    rw [valid_entries, List.filterMap_eq_nil_iff]
    intro l hl
    rw [hinv l hl]
    rfl
  unfold create_blocks_from_lots
  rw [hempty]
  simp only [Bool.false_eq_true, if_false, hentries]
  rfl

theorem c2_witness :
    ∃ offs urs,
      offset_regions_outward donutKernel (lot_regions_of [lotA, lotB])
        donutKernel.rawTol = .ok offs ∧
      get_union_regions donutKernel offs = .ok urs ∧
      (Block.mk [lotA, lotB] 10 true).is_donut = decide (urs.length ≠ 1) :=
  c2_is_donut_count donutKernel [lotA, lotB] (Block.mk [lotA, lotB] 10 true) (by rfl)

theorem c3_witness :
    get_out_region donutKernel [10, 20] = .ok 10 ∧
    Block.construct donutKernel [lotA, lotB] =
      (finish_block_region donutKernel 10 true).map
        (fun rd => { lots := [lotA, lotB], region := rd.1, is_donut := rd.2 }) :=
  (c3_outer_region donutKernel [lotA, lotB] [1, 2] [10, 20] (by rfl) (by rfl)
    (by decide)).2 0 10 (by decide) (by decide) (by decide)

theorem c5_witness :
    ((([10] : List Nat)).length ≠ 1 →
      Block.construct donutKernel [lotA, lotB] =
        .error "block region is not a single curve after offset") ∧
    (∀ r, ([10] : List Nat) = [r] →
      Block.construct donutKernel [lotA, lotB] =
        .ok { lots := [lotA, lotB], region := r, is_donut := true }) :=
  c5_inward_same_distance donutKernel [lotA, lotB] [1, 2] [10, 20] 10 true [10]
    (by rfl) (by rfl)
    (Or.inr ⟨by decide, by rfl, rfl⟩) (by rfl)

/-- C10: when the filtered lot list is non-empty and no lot's boundary
converts to a valid polygon, `BlockGenerator.generate` neither drops the
lots nor raises at the clustering stage: it attempts exactly one
singleton Block per input lot, bypassing the adjacency graph and
clustering entirely; when these constructions succeed each returned
Block contains exactly its one lot. -/
theorem c10_fallback (K : GeomKernel C P D) (parcels : List (Parcel C))
    (hne : parcels.filter (fun p => decide (p.kind = ParcelKind.lot)) ≠ [])
    (hinv : ∀ lot ∈ parcels.filter (fun p => decide (p.kind = ParcelKind.lot)),
      rhino_curve_to_shapely_polygon K lot.region lot.hole_regions = none) :
    generate K parcels =
      (parcels.filter (fun p => decide (p.kind = ParcelKind.lot))).mapM
        (fun lot => Block.construct K [lot]) ∧
    ∀ bs, generate K parcels = .ok bs →
      List.Forall₂ (fun lot b => b.lots = [lot])
        (parcels.filter (fun p => decide (p.kind = ParcelKind.lot))) bs := by
  have hmain : generate K parcels =
      (parcels.filter (fun p => decide (p.kind = ParcelKind.lot))).mapM
        (fun lot => Block.construct K [lot]) :=
    create_blocks_fallback hne hinv
  refine ⟨hmain, ?_⟩
  intro bs hok
  rw [hmain] at hok
  exact (mapM_ok_forall₂ hok).imp (fun _ _ hfb => construct_lots hfb)

theorem c10_witness :
    generate allInvalidKernel [lotA, lotB] =
      [lotA, lotB].mapM (fun lot => Block.construct allInvalidKernel [lot]) ∧
    ∀ bs, generate allInvalidKernel [lotA, lotB] = .ok bs →
      List.Forall₂ (fun lot b => b.lots = [lot]) [lotA, lotB] bs :=
  c10_fallback allInvalidKernel [lotA, lotB] (by decide) (by decide)

/-! Error tracing: every error the pipeline can raise is one of the
fixed messages in `fatal_error_messages`, independent of the input. -/

theorem offset_region_outward_error {K : GeomKernel C P D} {r : C} {d : D} {e : String}
    (h : offset_region_outward K r d = .error e) : e ∈ fatal_error_messages := by
  unfold offset_region_outward at h
  by_cases hz : K.distIsZero d = true
  · rw [if_pos hz] at h; cases h
  · rw [if_neg hz] at h
    cases hoc : K.offsetContour [r] d with
    | nil => rw [hoc] at h; cases h; decide
    | cons c t => rw [hoc] at h; cases h

theorem polyline_boolean_union_error {K : GeomKernel C P D} {a b : List C} {e : String}
    (h : polyline_boolean_union K a b = .error e) : e ∈ fatal_error_messages := by
  unfold polyline_boolean_union at h
  by_cases hc : (a.isEmpty || b.isEmpty) = true
  · rw [if_pos hc] at h; cases h; decide
  · rw [if_neg hc] at h; cases h

theorem get_union_regions_error {K : GeomKernel C P D} {regions : List C} {e : String}
    (h : get_union_regions K regions = .error e) : e ∈ fatal_error_messages := by
  match regions, h with
  | [], h => cases h
  | [r], h => cases h
  | r1 :: r2 :: t, h =>
    simp only [get_union_regions] at h
    by_cases hu : (K.createBooleanUnion (r1 :: r2 :: t)).isEmpty = true
    · rw [if_pos hu] at h
      rcases foldlM_error_mem h with ⟨acc, a, _, hfa⟩
      exact polyline_boolean_union_error hfa
    · rw [if_neg hu] at h; cases h

theorem get_out_region_error {K : GeomKernel C P D} {regions : List C} {e : String}
    (h : get_out_region K regions = .error e) : e ∈ fatal_error_messages := by
  match regions, h with
  | [r], h => cases h
  | [], h =>
    simp only [get_out_region] at h
    cases h
    decide
  | r1 :: r2 :: t, h =>
    simp only [get_out_region] at h
    cases hf : (r1 :: r2 :: t).enum.find?
        (fun ic => contains_all_others K (r1 :: r2 :: t).enum ic.1 ic.2) with
    | some ic => rw [hf] at h; cases h
    | none => rw [hf] at h; cases h; decide

theorem offset_regions_inward_error {K : GeomKernel C P D} {r : C} {d : D} {e : String}
    (h : offset_regions_inward K r d = .error e) : e ∈ fatal_error_messages := by
  unfold offset_regions_inward at h
  by_cases hz : K.distIsZero d = true
  · rw [if_pos hz] at h; cases h; decide
  · rw [if_neg hz] at h
    by_cases hl : (K.offsetHoles [r] d).length < 2
    · simp only [if_pos hl] at h; cases h
    · simp only [if_neg hl] at h; cases h

theorem finish_block_region_error {K : GeomKernel C P D} {contour : C} {d : Bool} {e : String}
    (h : finish_block_region K contour d = .error e) : e ∈ fatal_error_messages := by
  unfold finish_block_region at h
  cases hin : offset_regions_inward K contour K.rawTol with
  | error e2 =>
    rw [hin, except_bind_error] at h
    cases h
    exact offset_regions_inward_error hin
  | ok inw =>
    rw [hin, except_bind_ok] at h
    match inw, h with
    | [], h => cases h; decide
    | [r], h => cases h
    | r1 :: r2 :: t, h => cases h; decide

theorem set_block_region_error {K : GeomKernel C P D} {lots : List (Parcel C)} {e : String}
    (h : set_block_region K lots = .error e) : e ∈ fatal_error_messages := by
  unfold set_block_region at h
  cases ho : offset_regions_outward K (lot_regions_of lots) K.rawTol with
  | error e2 =>
    rw [ho, except_bind_error] at h
    cases h
    rcases mapM_error_mem ho with ⟨a, _, ha⟩
    exact offset_region_outward_error ha
  | ok offs =>
    rw [ho, except_bind_ok] at h
    cases hu : get_union_regions K offs with
    | error e2 =>
      rw [hu, except_bind_error] at h
      cases h
      exact get_union_regions_error hu
    | ok urs =>
      rw [hu, except_bind_ok] at h
      match urs, h with
      | [r], h => exact finish_block_region_error h
      | [], h =>
        rw [show get_out_region K ([] : List C) =
          .error "no single outer region containing every region" from rfl,
          except_bind_error] at h
        cases h
        decide
      | r1 :: r2 :: t, h =>
        cases hgo : get_out_region K (r1 :: r2 :: t) with
        | error e2 =>
          rw [hgo, except_bind_error] at h
          cases h
          exact get_out_region_error hgo
        | ok c =>
          rw [hgo, except_bind_ok] at h
          exact finish_block_region_error h

theorem construct_error {K : GeomKernel C P D} {ls : List (Parcel C)} {e : String}
    (h : Block.construct K ls = .error e) : e ∈ fatal_error_messages :=
  set_block_region_error (except_map_error h)

theorem create_blocks_error {K : GeomKernel C P D} {lots : List (Parcel C)} {e : String}
    (h : create_blocks_from_lots K lots = .error e) : e ∈ fatal_error_messages := by
  unfold create_blocks_from_lots at h
  by_cases hl : lots.isEmpty = true
  · rw [if_pos hl] at h; cases h
  · rw [if_neg hl] at h
    by_cases hp : ((valid_entries K lots).map (fun x => x.1)).isEmpty = true
    · simp only [if_pos hp] at h
      rcases mapM_error_mem h with ⟨a, _, ha⟩
      exact construct_error ha
    · simp only [if_neg hp] at h
      rcases mapM_error_mem h with ⟨a, _, ha⟩
      exact construct_error ha

/-- C4 corrected: the claim that a fatal cluster failure identifies the
offending member lot ids and leaves the other clusters' Blocks intact is
false.  On this concrete input (two non-adjacent valid lots, the inward
offset of lot a's cluster degenerating) `generate` returns a bare
`ValueError` and no Blocks at all, although the cluster of lot b alone
constructs fine; moreover the same input with different pnus (x, y)
produces the identical error value, so the error identifies no lot
ids. -/
theorem c4_counterexample :
    generate failKernel [lotA, lotB] =
      .error "block region is not a single curve after offset" ∧
    Block.construct failKernel [lotB] = .ok (Block.mk [lotB] 2 false) ∧
    generate failKernel [lotX, lotY] =
      .error "block region is not a single curve after offset" :=
  ⟨rfl, rfl, rfl⟩

/-- C4 amended: when constructing a Block for some cluster fails a fatal
geometry check, the raised `ValueError` carries one of five fixed
messages, none of which depends on (or identifies) the cluster's member
lot ids, and the exception propagates out of `BlockGenerator.generate`,
aborting the whole batch: no Blocks are returned for the other
clusters. -/
theorem c4_amended_fixed_messages (K : GeomKernel C P D) (parcels : List (Parcel C))
    (e : String) (h : generate K parcels = .error e) : e ∈ fatal_error_messages :=
  create_blocks_error h

theorem c4_amended_witness :
    generate failKernel [lotA, lotB] =
      .error "block region is not a single curve after offset" ∧
    "block region is not a single curve after offset" ∈ fatal_error_messages :=
  ⟨rfl, c4_amended_fixed_messages failKernel [lotA, lotB]
    "block region is not a single curve after offset" rfl⟩

/-! Cluster emission lemmas. -/

theorem connected_components_subset {nodes : List String} {edges : List (String × String)}
    {cl : List String} (h : cl ∈ connected_components nodes edges) : ∀ p ∈ cl, p ∈ nodes := by
  rw [connected_components, emitClusters] at h
  rcases List.mem_map.mp h with ⟨g, _, rfl⟩
  intro p hp
  exact (List.mem_filter.mp hp).1

/-- C8 corrected counterexample: a single lot whose boundary does not
convert to a valid polygon is not excluded: the fallback path attempts a
singleton Block for it, whose construction raises a `ValueError` and
aborts the run. -/
theorem c8_counterexample :
    generate isolatedKernel [invalidLot] =
      .error "no single outer region containing every region" :=
  rfl

/-- C8 amended: provided at least one lot's boundary converts to a valid
polygon (and pnus are pairwise distinct), a lot whose boundary does not
convert is excluded from the adjacency graph's node set and appears in
no returned Block; only when no lot at all is valid does the fallback
path put invalid lots into singleton Blocks (see C10), which can abort
the run. -/
theorem c8_amended_exclusion (K : GeomKernel C P D) (lots : List (Parcel C))
    (bs : List (Block C))
    (hnodup : (lots.map (fun l => l.pnu)).Nodup)
    (l0 : Parcel C) (hl0 : l0 ∈ lots)
    (hinv : rhino_curve_to_shapely_polygon K l0.region l0.hole_regions = none)
    (hvalid : valid_pnus K lots ≠ [])
    (hok : create_blocks_from_lots K lots = .ok bs) :
    l0.pnu ∉ dedupKeepFirst (valid_pnus K lots) ∧
    ∀ b ∈ bs, l0.pnu ∉ member_pnus b := by
  have hnv : l0.pnu ∉ valid_pnus K lots := by
    intro hmem
    rcases valid_pnus_elim hmem with ⟨l1, hl1, hpnu, poly, hconv⟩
    have hl10 : l1 = l0 := map_nodup_inj hnodup l1 hl1 l0 hl0 (by rw [hpnu])
    subst hl10
    rw [hconv] at hinv
    cases hinv
  refine ⟨fun hmem => hnv (mem_dedupKeepFirst.mp hmem), ?_⟩
  intro b hb hmem
  rw [create_blocks_main hvalid] at hok
  rcases mapM_ok_mem hok b hb with ⟨grp, hgrp, hcon⟩
  have hsub : ∀ p ∈ grp, p ∈ dedupKeepFirst (valid_pnus K lots) :=
    connected_components_subset hgrp
  have hmp : member_pnus b = grp := by
    rw [member_pnus, construct_lots hcon]
    exact filterMap_lot_map_get_pnus
      (fun p hp => valid_pnus_subset p (mem_dedupKeepFirst.mp (hsub p hp)))
  rw [hmp] at hmem
  exact hnv (mem_dedupKeepFirst.mp (hsub _ hmem))

theorem c8_amended_witness :
    invalidLot.pnu ∉ dedupKeepFirst (valid_pnus isolatedKernel [lotA, invalidLot]) ∧
    ∀ b ∈ [Block.mk [lotA] 1 false], invalidLot.pnu ∉ member_pnus b :=
  c8_amended_exclusion isolatedKernel [lotA, invalidLot] [Block.mk [lotA] 1 false]
    (by decide) invalidLot (by decide) rfl (by decide) rfl

/-! The no-adjacency characterization of cluster emission used for the
amended C6. -/

theorem emitClusters_singletons {nodes : List String} (hn : nodes.Nodup) :
    emitClusters nodes (nodes.map (fun p => [p])) = nodes.map (fun v => [v]) := by
  rw [emitClusters]
  have hhits : nodes.filterMap
      (fun v => (nodes.map (fun p => [p])).find? (fun g => decide (v ∈ g))) =
      nodes.map (fun v => [v]) := by
    apply filterMap_congr_some
    intro v hv
    apply find?_eq_some_of_unique (List.mem_map_of_mem (fun p => [p]) hv)
    · simp
    · intro g hg hvg
      rcases List.mem_map.mp hg with ⟨u, _, rfl⟩
      have hvu : v = u := by simpa using hvg
      rw [hvu]
  rw [hhits, dedupKeepFirst_eq_self (hn.map (fun a b hab => by simpa using hab)),
    List.map_map]
  apply List.map_congr_left
  intro v hv
  apply filter_eq_singleton_of_nodup hn hv
  · simp
  · intro b _ hqb
    simpa using hqb

theorem connected_components_no_edges {nodes : List String} (hn : nodes.Nodup) :
    connected_components nodes [] = nodes.map (fun v => [v]) := by
  rw [connected_components]
  exact emitClusters_singletons hn

theorem valid_pnus_all_valid {K : GeomKernel C P D} :
    ∀ {lots : List (Parcel C)},
      (∀ lot ∈ lots, ∃ poly,
        rhino_curve_to_shapely_polygon K lot.region lot.hole_regions = some poly) →
      valid_pnus K lots = lots.map (fun l => l.pnu) := by
  intro lots
  induction lots with
  | nil => intro _; rfl
  | cons l t ih =>
    intro hall
    rcases hall l (List.mem_cons_self l t) with ⟨poly, hpoly⟩
    have hstep : valid_entries K (l :: t) = (l.pnu, poly) :: valid_entries K t := by
      rw [valid_entries, List.filterMap_cons, hpoly]
      rfl
    have ht := ih (fun x hx => hall x (List.mem_cons_of_mem l hx))
    rw [valid_pnus, hstep, List.map_cons, List.map_cons]
    exact congrArg (fun s => l.pnu :: s) ht

theorem sjoin_pairs_nil {K : GeomKernel C P D} {entries : List (String × P)}
    (h : ∀ a ∈ entries, ∀ b ∈ entries, K.intersects a.2 b.2 = false) :
    sjoin_pairs K entries = [] := by
  rw [sjoin_pairs, List.flatMap_eq_nil_iff]
  intro a ha
  rw [List.filterMap_eq_nil_iff]
  intro b hb
  rw [h a ha b hb]
  simp

/-- C6 counterexample: the emitted clusters are not normalized.  With
two valid non-adjacent lots input in the order b, a, the code emits the
clusters in discovery order b, a; the claim's ordering by minimum id
would require a before b. -/
theorem c6_counterexample :
    Except.map (fun bs => bs.map member_pnus) (generate isolatedKernel [lotB, lotA]) =
      .ok [["b"], ["a"]] :=
  rfl

/-- C6 amended: the extracted clusters are emitted deterministically but
with no normalization: neither a lexicographic sort within clusters nor
an ordering of clusters by minimum id is applied; the emitted order
follows the discovery order of the graph's insertion-ordered nodes.  In
particular, when no two valid lots intersect, the result is one
singleton cluster per valid lot in input order. -/
theorem c6_amended_no_sort (K : GeomKernel C P D) (lots : List (Parcel C))
    (bs : List (Block C))
    (hnodup : (lots.map (fun l => l.pnu)).Nodup)
    (hne : lots ≠ [])
    (hvalid : ∀ lot ∈ lots, ∃ poly,
      rhino_curve_to_shapely_polygon K lot.region lot.hole_regions = some poly)
    (hnoint : ∀ a ∈ valid_entries K lots, ∀ b ∈ valid_entries K lots,
      K.intersects a.2 b.2 = false)
    (hok : create_blocks_from_lots K lots = .ok bs) :
    bs.map member_pnus = lots.map (fun l => [l.pnu]) := by
  have hvp : valid_pnus K lots = lots.map (fun l => l.pnu) := valid_pnus_all_valid hvalid
  have hvne : valid_pnus K lots ≠ [] := by
    rw [hvp]
    cases lots with
    | nil => exact absurd rfl hne
    | cons a t => simp
  rw [create_blocks_main hvne] at hok
  have hedges : edge_list K (valid_entries K lots) = [] := by
    rw [edge_list, sjoin_pairs_nil hnoint]
    rfl
  have hnodes : dedupKeepFirst (valid_pnus K lots) = lots.map (fun l => l.pnu) := by
    rw [hvp, dedupKeepFirst_eq_self hnodup]
  rw [hedges, hnodes, connected_components_no_edges hnodup] at hok
  have hb : bs.map member_pnus =
      ((lots.map (fun l => l.pnu)).map (fun v => [v])).map (fun grp => grp) := by
    apply mapM_ok_map hok
    intro grp hgrp b hcb
    rcases List.mem_map.mp hgrp with ⟨p, hp, rfl⟩
    rw [member_pnus, construct_lots hcb]
    refine filterMap_lot_map_get_pnus (fun q hq => ?_)
    have hqp : q = p := by simpa using hq
    rw [hqp]
    exact hp
  rw [hb, List.map_map, List.map_map]
  apply List.map_congr_left
  intro l _
  rfl

theorem c6_amended_witness :
    [Block.mk [lotB] 2 false, Block.mk [lotA] 1 false].map member_pnus =
      [lotB, lotA].map (fun l => [l.pnu]) := by
  refine c6_amended_no_sort isolatedKernel [lotB, lotA]
    [Block.mk [lotB] 2 false, Block.mk [lotA] 1 false]
    (by decide) (by decide) ?_ (by decide) rfl
  intro lot hl
  rcases List.mem_cons.mp hl with rfl | hl2
  · exact ⟨2, rfl⟩
  · rcases List.mem_cons.mp hl2 with rfl | hl3
    · exact ⟨1, rfl⟩
    · exact absurd hl3 (by simp)

/-! Union-find invariants: the group list maintained by `mergeGroups`
always flattens to a permutation of the node list and contains no empty
group.  Together with `Nodup` of the nodes this makes the groups a
partition. -/

theorem flatten_map_singleton {α : Type} :
    ∀ (l : List α), (l.map (fun a => [a])).flatten = l := by
  intro l
  induction l with
  | nil => rfl
  | cons a t ih => simp only [List.map_cons, List.flatten_cons, ih]; rfl

theorem sublist_flatten {α : Type} {l1 l2 : List (List α)} (h : l1.Sublist l2) :
    l1.flatten.Sublist l2.flatten := by
  induction h with
  | slnil => exact List.Sublist.refl _
  | cons a _ ih => exact ih.trans (List.sublist_append_right a _)
  | cons₂ a _ ih => exact (List.Sublist.refl a).append ih

theorem groups_nodup_of_flatten {groups : List (List String)}
    (hfl : groups.flatten.Nodup) (hne : ∀ g ∈ groups, g ≠ []) : groups.Nodup := by
  by_contra hnd
  rcases List.exists_duplicate_iff_not_nodup.mpr hnd with ⟨g, hdup⟩
  have hsub : List.Sublist [g, g] groups := List.duplicate_iff_sublist.mp hdup
  obtain ⟨x, hx⟩ : ∃ x, x ∈ g := by
    cases hg : g with
    | nil => exact absurd hg (hne g hdup.mem)
    | cons y t => exact ⟨y, List.mem_cons_self y t⟩
  have hcount2 : 2 ≤ ([g, g].flatten).count x := by
    have h1 : 0 < g.count x := List.count_pos_iff.mpr hx
    have h2 : ([g, g].flatten).count x = g.count x + g.count x := by
      simp [List.count_append]
    omega
  have hle : ([g, g].flatten).count x ≤ groups.flatten.count x :=
    (sublist_flatten hsub).count_le x
  have hone : groups.flatten.count x ≤ 1 := List.nodup_iff_count_le_one.mp hfl x
  omega

theorem perm_cons_filter_ne {l : List (List String)} :
    l.Nodup → ∀ {a : List String}, a ∈ l →
      l.Perm (a :: l.filter (fun g => decide (g ≠ a))) := by
  induction l with
  | nil => intro _ a ha; exact absurd ha (by simp)
  | cons h t ih =>
    intro hnd a ha
    by_cases hha : h = a
    · subst hha
      have hnt : h ∉ t := (List.nodup_cons.mp hnd).1
      have hft : t.filter (fun g => decide (g ≠ h)) = t := by
        rw [List.filter_eq_self]
        intro g hg
        simp only [decide_eq_true_eq]
        intro hgh
        exact hnt (hgh ▸ hg)
      rw [List.filter_cons, if_neg (by simp)]
      rw [hft]
    · have hat : a ∈ t := by
        rcases List.mem_cons.mp ha with h1 | h1
        · exact absurd h1.symm hha
        · exact h1
      have hstep := ih (List.nodup_cons.mp hnd).2 hat
      rw [List.filter_cons, if_pos (by simpa using hha)]
      exact (hstep.cons h).trans (List.Perm.swap a h _)

theorem flatten_count_two {groups : List (List String)} {x : String} :
    ∀ {ga gb : List String}, ga ∈ groups → gb ∈ groups → ga ≠ gb → x ∈ ga → x ∈ gb →
      2 ≤ groups.flatten.count x := by
  induction groups with
  | nil => intro ga _ hga; exact absurd hga (by simp)
  | cons h t ih =>
    intro ga gb hga hgb hne hxa hxb
    have hcount : (h :: t).flatten.count x = h.count x + t.flatten.count x := by
      simp [List.count_append]
    by_cases hah : ga = h
    · subst hah
      have hgbt : gb ∈ t := by
        rcases List.mem_cons.mp hgb with h1 | h1
        · exact absurd h1.symm hne
        · exact h1
      have h1 : 0 < ga.count x := List.count_pos_iff.mpr hxa
      have h2 : 0 < t.flatten.count x :=
        List.count_pos_iff.mpr (List.mem_flatten_of_mem hgbt hxb)
      omega
    · by_cases hbh : gb = h
      · subst hbh
        have hgat : ga ∈ t := by
          rcases List.mem_cons.mp hga with h1 | h1
          · exact absurd h1 hah
          · exact h1
        have h1 : 0 < gb.count x := List.count_pos_iff.mpr hxb
        have h2 : 0 < t.flatten.count x :=
          List.count_pos_iff.mpr (List.mem_flatten_of_mem hgat hxa)
        omega
      · have hgat : ga ∈ t := by
          rcases List.mem_cons.mp hga with h1 | h1
          · exact absurd h1 hah
          · exact h1
        have hgbt : gb ∈ t := by
          rcases List.mem_cons.mp hgb with h1 | h1
          · exact absurd h1 hbh
          · exact h1
        have := ih hgat hgbt hne hxa hxb
        omega

theorem unique_group_of_flatten {groups : List (List String)} (hfl : groups.flatten.Nodup)
    {ga gb : List String} (hga : ga ∈ groups) (hgb : gb ∈ groups)
    {x : String} (hxa : x ∈ ga) (hxb : x ∈ gb) : ga = gb := by
  by_contra hne
  have h2 := flatten_count_two hga hgb hne hxa hxb
  have h1 := List.nodup_iff_count_le_one.mp hfl x
  omega

theorem mergeGroups_eq_of_finds {groups : List (List String)} {e : String × String}
    {ga gb : List String}
    (hfa : groups.find? (fun g => decide (e.1 ∈ g)) = some ga)
    (hfb : groups.find? (fun g => decide (e.2 ∈ g)) = some gb) :
    mergeGroups groups e =
      if ga = gb then groups
      else groups.filter (fun g => decide (g ≠ ga ∧ g ≠ gb)) ++ [ga ++ gb] := by
  unfold mergeGroups
  rw [hfa, hfb]

theorem mergeGroups_eq_of_none_left {groups : List (List String)} {e : String × String}
    (hfa : groups.find? (fun g => decide (e.1 ∈ g)) = none) :
    mergeGroups groups e = groups := by
  unfold mergeGroups
  rw [hfa]

theorem mergeGroups_eq_of_none_right {groups : List (List String)} {e : String × String}
    {ga : List String}
    (hfa : groups.find? (fun g => decide (e.1 ∈ g)) = some ga)
    (hfb : groups.find? (fun g => decide (e.2 ∈ g)) = none) :
    mergeGroups groups e = groups := by
  unfold mergeGroups
  rw [hfa, hfb]

theorem perm_cons_cons_filter {groups : List (List String)} (hnd : groups.Nodup)
    {ga gb : List String} (hga : ga ∈ groups) (hgb : gb ∈ groups) (hne : ga ≠ gb) :
    groups.Perm (ga :: gb :: groups.filter (fun g => decide (g ≠ ga ∧ g ≠ gb))) := by
  have h1 : groups.Perm (ga :: groups.filter (fun g => decide (g ≠ ga))) :=
    perm_cons_filter_ne hnd hga
  have hgb1 : gb ∈ groups.filter (fun g => decide (g ≠ ga)) := by
    rw [List.mem_filter]
    refine ⟨hgb, ?_⟩
    simp only [decide_eq_true_eq]
    exact fun hh => hne hh.symm
  have h2 : (groups.filter (fun g => decide (g ≠ ga))).Perm
      (gb :: (groups.filter (fun g => decide (g ≠ ga))).filter
        (fun g => decide (g ≠ gb))) :=
    perm_cons_filter_ne (hnd.filter _) hgb1
  have h3 : (groups.filter (fun g => decide (g ≠ ga))).filter (fun g => decide (g ≠ gb)) =
      groups.filter (fun g => decide (g ≠ ga ∧ g ≠ gb)) := by
    rw [List.filter_filter]
    apply List.filter_congr
    intro g _
    by_cases hx1 : g = ga <;> by_cases hx2 : g = gb <;> simp [hx1, hx2]
  rw [h3] at h2
  exact h1.trans (h2.cons ga)

theorem mergeGroups_inv {nodes : List String} (hn : nodes.Nodup)
    {groups : List (List String)} (hfp : groups.flatten.Perm nodes)
    (hne : ∀ g ∈ groups, g ≠ []) (e : String × String) :
    (mergeGroups groups e).flatten.Perm nodes ∧ ∀ g ∈ mergeGroups groups e, g ≠ [] := by
  cases hfa : groups.find? (fun g => decide (e.1 ∈ g)) with
  | none => rw [mergeGroups_eq_of_none_left hfa]; exact ⟨hfp, hne⟩
  | some ga =>
    cases hfb : groups.find? (fun g => decide (e.2 ∈ g)) with
    | none => rw [mergeGroups_eq_of_none_right hfa hfb]; exact ⟨hfp, hne⟩
    | some gb =>
      rw [mergeGroups_eq_of_finds hfa hfb]
      by_cases hgagb : ga = gb
      · rw [if_pos hgagb]; exact ⟨hfp, hne⟩
      · rw [if_neg hgagb]
        have hga : ga ∈ groups := List.mem_of_find?_eq_some hfa
        have hgb : gb ∈ groups := List.mem_of_find?_eq_some hfb
        have hfl : groups.flatten.Nodup := hn.perm hfp.symm
        have hgnodup : groups.Nodup := groups_nodup_of_flatten hfl hne
        have hperm12 : groups.Perm
            (ga :: gb :: groups.filter (fun g => decide (g ≠ ga ∧ g ≠ gb))) :=
          perm_cons_cons_filter hgnodup hga hgb hgagb
        have hflat : (groups.filter (fun g => decide (g ≠ ga ∧ g ≠ gb)) ++
            [ga ++ gb]).flatten.Perm nodes := by
          have h1 : (groups.filter (fun g => decide (g ≠ ga ∧ g ≠ gb)) ++
              [ga ++ gb]).flatten =
              (groups.filter (fun g => decide (g ≠ ga ∧ g ≠ gb))).flatten ++
                (ga ++ gb) := by
            simp
          rw [h1]
          have h2 : ((groups.filter (fun g => decide (g ≠ ga ∧ g ≠ gb))).flatten ++
              (ga ++ gb)).Perm
              ((ga ++ gb) ++ (groups.filter (fun g => decide (g ≠ ga ∧ g ≠ gb))).flatten) :=
            List.perm_append_comm
          refine h2.trans ?_
          have h3 : (ga ++ gb) ++
              (groups.filter (fun g => decide (g ≠ ga ∧ g ≠ gb))).flatten =
              (ga :: gb :: groups.filter (fun g => decide (g ≠ ga ∧ g ≠ gb))).flatten := by
            simp
          rw [h3]
          exact hperm12.flatten.symm.trans hfp
        refine ⟨hflat, ?_⟩
        intro g hg
        rcases List.mem_append.mp hg with hg1 | hg2
        · exact hne g (List.mem_filter.mp hg1).1
        · have hg3 : g = ga ++ gb := by
            rcases List.mem_cons.mp hg2 with h | h
            · exact h
            · exact absurd h (by simp)
          rw [hg3]
          intro hnil
          rcases List.append_eq_nil.mp hnil with ⟨h1, _⟩
          exact hne ga hga h1

theorem foldl_mergeGroups_inv {nodes : List String} (hn : nodes.Nodup) :
    ∀ (edges : List (String × String)) {groups : List (List String)},
      groups.flatten.Perm nodes → (∀ g ∈ groups, g ≠ []) →
      (edges.foldl mergeGroups groups).flatten.Perm nodes ∧
      ∀ g ∈ edges.foldl mergeGroups groups, g ≠ [] := by
  intro edges
  induction edges with
  | nil => intro groups h1 h2; exact ⟨h1, h2⟩
  | cons e t ih =>
    intro groups h1 h2
    rcases mergeGroups_inv hn h1 h2 e with ⟨h1', h2'⟩
    exact ih h1' h2'

theorem hits_subset_groups {nodes : List String} {groups : List (List String)} :
    ∀ g ∈ nodes.filterMap (fun v => groups.find? (fun g => decide (v ∈ g))), g ∈ groups := by
  intro g hg
  rcases List.mem_filterMap.mp hg with ⟨v, _, hfv⟩
  exact List.mem_of_find?_eq_some hfv

theorem emitClusters_countP {nodes : List String} (hn : nodes.Nodup)
    {groups : List (List String)} (hfp : groups.flatten.Perm nodes)
    (hne : ∀ g ∈ groups, g ≠ []) (p : String) :
    (emitClusters nodes groups).countP (fun cl => decide (p ∈ cl)) =
      if p ∈ nodes then 1 else 0 := by
  have hfl : groups.flatten.Nodup := hn.perm hfp.symm
  rw [emitClusters]
  by_cases hp : p ∈ nodes
  · rw [if_pos hp]
    rcases List.mem_flatten.mp (hfp.symm.subset hp) with ⟨G, hG, hpG⟩
    have huniq : ∀ H ∈ groups, p ∈ H → H = G :=
      fun H hH hpH => unique_group_of_flatten hfl hH hG hpH hpG
    have hGhits : G ∈ nodes.filterMap (fun v => groups.find? (fun g => decide (v ∈ g))) := by
      rw [List.mem_filterMap]
      refine ⟨p, hp, ?_⟩
      exact find?_eq_some_of_unique hG (by simpa using hpG)
        (fun H hH hpH => huniq H hH (by simpa using hpH))
    rw [List.countP_map]
    have hcongr : (dedupKeepFirst
        (nodes.filterMap (fun v => groups.find? (fun g => decide (v ∈ g))))).countP
          ((fun cl => decide (p ∈ cl)) ∘ (fun g => nodes.filter (fun v => decide (v ∈ g)))) =
        (dedupKeepFirst
          (nodes.filterMap (fun v => groups.find? (fun g => decide (v ∈ g))))).countP
          (fun g => decide (p ∈ g)) := by
      apply List.countP_congr
      intro g _
      simp only [Function.comp, decide_eq_true_eq, List.mem_filter]
      constructor
      · intro hh
        exact hh.2
      · intro hh
        exact ⟨hp, hh⟩
    rw [hcongr, List.countP_eq_length_filter,
      filter_eq_singleton_of_nodup
        (nodup_dedupKeepFirst _) (mem_dedupKeepFirst.mpr hGhits) (by simpa using hpG)
        (fun H hH hpH =>
          huniq H (hits_subset_groups H (mem_dedupKeepFirst.mp hH)) (by simpa using hpH))]
    rfl
  · rw [if_neg hp, List.countP_eq_zero]
    intro cl hcl
    rcases List.mem_map.mp hcl with ⟨g, _, rfl⟩
    simp only [decide_eq_true_eq]
    intro hmem
    exact hp (List.mem_filter.mp hmem).1

/-- C1: for every input list of Lots with pairwise-distinct pnu values
in which at least one lot's boundary converts to a valid polygon, and
when every Block construction succeeds, the Blocks returned by
`BlockGenerator.generate` partition the set of valid input lot ids:
every valid id appears in exactly one Block's member list, and no id at
all appears in two Blocks. -/
theorem c1_partition (K : GeomKernel C P D) (parcels : List (Parcel C)) (bs : List (Block C))
    (hkind : ∀ q ∈ parcels, q.kind = ParcelKind.lot)
    (hnodup : (parcels.map (fun l => l.pnu)).Nodup)
    (hvalid : valid_pnus K parcels ≠ [])
    (hok : generate K parcels = .ok bs) :
    ∀ p, bs.countP (fun b => decide (p ∈ member_pnus b)) =
      if p ∈ valid_pnus K parcels then 1 else 0 := by
  have hfilter : parcels.filter (fun q => decide (q.kind = ParcelKind.lot)) = parcels :=
    List.filter_eq_self.mpr (fun a ha => by simp [hkind a ha])
  have hok2 : create_blocks_from_lots K parcels = .ok bs := by
    rw [generate, hfilter] at hok
    exact hok
  rw [create_blocks_main hvalid] at hok2
  intro p
  have hn : (dedupKeepFirst (valid_pnus K parcels)).Nodup := nodup_dedupKeepFirst _
  have hinit1 : ((dedupKeepFirst (valid_pnus K parcels)).map (fun q => [q])).flatten.Perm
      (dedupKeepFirst (valid_pnus K parcels)) := by
    rw [flatten_map_singleton]
  have hinit2 : ∀ g ∈ (dedupKeepFirst (valid_pnus K parcels)).map (fun q => [q]),
      g ≠ [] := by
    intro g hg
    rcases List.mem_map.mp hg with ⟨q, _, rfl⟩
    simp
  rcases foldl_mergeGroups_inv hn (edge_list K (valid_entries K parcels)) hinit1 hinit2
    with ⟨hfp, hnem⟩
  have hcount := emitClusters_countP hn hfp hnem p
  have hcountbs : bs.countP (fun b => decide (p ∈ member_pnus b)) =
      (connected_components (dedupKeepFirst (valid_pnus K parcels))
        (edge_list K (valid_entries K parcels))).countP (fun cl => decide (p ∈ cl)) := by
    apply mapM_ok_countP hok2
    intro grp hgrp b hcb
    have hmp : member_pnus b = grp := by
      rw [member_pnus, construct_lots hcb]
      exact filterMap_lot_map_get_pnus (fun q hq =>
        valid_pnus_subset q (mem_dedupKeepFirst.mp (connected_components_subset hgrp q hq)))
    rw [hmp]
  rw [hcountbs,
    show connected_components (dedupKeepFirst (valid_pnus K parcels))
        (edge_list K (valid_entries K parcels)) =
      emitClusters (dedupKeepFirst (valid_pnus K parcels))
        ((edge_list K (valid_entries K parcels)).foldl mergeGroups
          ((dedupKeepFirst (valid_pnus K parcels)).map (fun q => [q]))) from rfl,
    hcount]
  by_cases hp : p ∈ valid_pnus K parcels
  · rw [if_pos hp, if_pos (mem_dedupKeepFirst.mpr hp)]
  · rw [if_neg hp, if_neg (fun hc => hp (mem_dedupKeepFirst.mp hc))]

theorem c1_witness :
    [Block.mk [lotA] 1 false, Block.mk [lotB] 2 false].countP
      (fun b => decide ("a" ∈ member_pnus b)) =
      if "a" ∈ valid_pnus isolatedKernel [lotA, lotB] then 1 else 0 :=
  c1_partition isolatedKernel [lotA, lotB]
    [Block.mk [lotA] 1 false, Block.mk [lotB] 2 false]
    (by decide) (by decide) (by decide) rfl "a"

/-! Lemmas about sorted pnu pairs and the canonical edge list. -/

theorem sortPair_comm (a b : String) : sortPair a b = sortPair b a := by
  unfold sortPair
  by_cases hab : a ≤ b
  · by_cases hba : b ≤ a
    · rw [if_pos hab, if_pos hba, le_antisymm hab hba]
    · rw [if_pos hab, if_neg hba]
  · by_cases hba : b ≤ a
    · rw [if_neg hab, if_pos hba]
    · rcases le_total a b with h | h
      · exact absurd h hab
      · exact absurd h hba

theorem sortPair_ne {a b : String} (h : a ≠ b) :
    (sortPair a b).1 ≠ (sortPair a b).2 := by
  unfold sortPair
  by_cases hab : a ≤ b
  · rw [if_pos hab]; exact h
  · rw [if_neg hab]; exact fun hh => h hh.symm

theorem sortPair_eq_iff {a b c d : String} (h : sortPair a b = sortPair c d) :
    (a = c ∧ b = d) ∨ (a = d ∧ b = c) := by
  unfold sortPair at h
  by_cases hab : a ≤ b
  · by_cases hcd : c ≤ d
    · rw [if_pos hab, if_pos hcd] at h
      injection h with h1 h2
      exact Or.inl ⟨h1, h2⟩
    · rw [if_pos hab, if_neg hcd] at h
      injection h with h1 h2
      exact Or.inr ⟨h1, h2⟩
  · by_cases hcd : c ≤ d
    · rw [if_neg hab, if_pos hcd] at h
      injection h with h1 h2
      exact Or.inr ⟨h2, h1⟩
    · rw [if_neg hab, if_neg hcd] at h
      injection h with h1 h2
      exact Or.inl ⟨h2, h1⟩

theorem mem_edge_list {K : GeomKernel C P D} {entries : List (String × P)}
    {x : String × String} :
    x ∈ edge_list K entries ↔ x ∈ sjoin_pairs K entries := by
  rw [edge_list, List.mem_insertionSort, mem_dedupKeepFirst]

theorem edge_list_nodup {K : GeomKernel C P D} (entries : List (String × P)) :
    (edge_list K entries).Nodup :=
  (nodup_dedupKeepFirst _).perm (List.perm_insertionSort pairLe _).symm

theorem mem_sjoin_pairs {K : GeomKernel C P D} {entries : List (String × P)}
    {x : String × String} :
    x ∈ sjoin_pairs K entries ↔
      ∃ a ∈ entries, ∃ b ∈ entries,
        (a.1 != b.1 && K.intersects a.2 b.2) = true ∧ x = sortPair a.1 b.1 := by
  rw [sjoin_pairs]
  constructor
  · intro hx
    rcases List.mem_flatMap.mp hx with ⟨a, ha, hxa⟩
    rcases List.mem_filterMap.mp hxa with ⟨b, hb, hfb⟩
    by_cases hc : (a.1 != b.1 && K.intersects a.2 b.2) = true
    · rw [if_pos hc] at hfb
      cases hfb
      exact ⟨a, ha, b, hb, hc, rfl⟩
    · rw [if_neg hc] at hfb
      cases hfb
  · rintro ⟨a, ha, b, hb, hc, rfl⟩
    exact List.mem_flatMap.mpr
      ⟨a, ha, List.mem_filterMap.mpr ⟨b, hb, by rw [if_pos hc]⟩⟩

theorem valid_pnus_sublist {K : GeomKernel C P D} :
    ∀ {lots : List (Parcel C)}, (valid_pnus K lots).Sublist (lots.map (fun l => l.pnu)) := by
  intro lots
  induction lots with
  | nil => exact List.Sublist.refl _
  | cons l t ih =>
    cases hconv : rhino_curve_to_shapely_polygon K l.region l.hole_regions with
    | none =>
      have hstep : valid_pnus K (l :: t) = valid_pnus K t := by
        rw [valid_pnus, valid_entries, List.filterMap_cons, hconv]
        rfl
      rw [hstep, List.map_cons]
      exact List.Sublist.cons _ ih
    | some poly =>
      have hstep : valid_pnus K (l :: t) = l.pnu :: valid_pnus K t := by
        rw [valid_pnus, valid_entries, List.filterMap_cons, hconv]
        rfl
      rw [hstep, List.map_cons]
      exact List.Sublist.cons₂ _ ih

/-- C7: the adjacency graph built over the valid lots has as node set
exactly the ids of the lots with a valid polygon (isolated lots
included), contains no self-loop edge, and each pair of distinct
intersecting lots contributes exactly one unordered edge, with
(a,b)/(b,a) rows deduplicated.  Stated under the pipeline's
pairwise-distinct-pnu assumption; `sjoin` evaluates the predicate on all
ordered row pairs, hence the symmetric disjunction. -/
theorem c7_adjacency_graph (K : GeomKernel C P D) (lots : List (Parcel C))
    (hnodup : (lots.map (fun l => l.pnu)).Nodup) :
    (∀ p, p ∈ dedupKeepFirst (valid_pnus K lots) ↔
      ∃ l ∈ lots, l.pnu = p ∧
        ∃ poly, rhino_curve_to_shapely_polygon K l.region l.hole_regions = some poly) ∧
    (∀ e ∈ edge_list K (valid_entries K lots), e.1 ≠ e.2) ∧
    (∀ a ∈ valid_entries K lots, ∀ b ∈ valid_entries K lots, a.1 ≠ b.1 →
      (edge_list K (valid_entries K lots)).countP (fun e => decide (e = sortPair a.1 b.1)) =
        if K.intersects a.2 b.2 = true ∨ K.intersects b.2 a.2 = true then 1 else 0) := by
  have hvnodup : (valid_pnus K lots).Nodup := List.Nodup.sublist valid_pnus_sublist hnodup
  have hentry : ∀ a ∈ valid_entries K lots, ∀ b ∈ valid_entries K lots,
      a.1 = b.1 → a = b := by
    intro a ha b hb hab
    exact map_nodup_inj (f := fun e : String × P => e.1) (l := valid_entries K lots)
      (show ((valid_entries K lots).map (fun e => e.1)).Nodup from hvnodup) a ha b hb hab
  refine ⟨?_, ?_, ?_⟩
  · intro p
    rw [mem_dedupKeepFirst]
    constructor
    · intro hp
      rcases valid_pnus_elim hp with ⟨l, hl, hpnu, poly, hconv⟩
      exact ⟨l, hl, hpnu, poly, hconv⟩
    · rintro ⟨l, hl, rfl, poly, hconv⟩
      exact valid_pnus_mem_of_valid hl hconv
  · intro e he
    rcases mem_sjoin_pairs.mp (mem_edge_list.mp he) with ⟨a, ha, b, hb, hcond, rfl⟩
    have hne : a.1 ≠ b.1 := by
      have h1 : (a.1 != b.1) = true := (Bool.and_eq_true_iff.mp hcond).1
      simpa using h1
    exact sortPair_ne hne
  · intro a ha b hb hne
    by_cases hint : K.intersects a.2 b.2 = true ∨ K.intersects b.2 a.2 = true
    · rw [if_pos hint]
      have hmem : sortPair a.1 b.1 ∈ edge_list K (valid_entries K lots) := by
        rw [mem_edge_list, mem_sjoin_pairs]
        rcases hint with h | h
        · refine ⟨a, ha, b, hb, ?_, rfl⟩
          rw [Bool.and_eq_true]
          exact ⟨by simpa using hne, h⟩
        · refine ⟨b, hb, a, ha, ?_, sortPair_comm a.1 b.1⟩
          rw [Bool.and_eq_true]
          exact ⟨by simpa using (Ne.symm hne), h⟩
      rw [List.countP_eq_length_filter,
        filter_eq_singleton_of_nodup (edge_list_nodup _) hmem (by simp)
          (fun y _ hy => of_decide_eq_true hy)]
      rfl
    · rw [if_neg hint, List.countP_eq_zero]
      intro x hmemx hdec
      have hxeq : x = sortPair a.1 b.1 := of_decide_eq_true hdec
      subst hxeq
      rcases mem_sjoin_pairs.mp (mem_edge_list.mp hmemx) with ⟨a2, ha2, b2, hb2, hcond, heq⟩
      rcases Bool.and_eq_true_iff.mp hcond with ⟨_, hint2⟩
      rcases sortPair_eq_iff heq with ⟨h1, h2⟩ | ⟨h1, h2⟩
      · have ha2a : a2 = a := hentry a2 ha2 a ha h1.symm
        have hb2b : b2 = b := hentry b2 hb2 b hb h2.symm
        subst ha2a; subst hb2b
        exact hint (Or.inl hint2)
      · have ha2b : a2 = b := hentry a2 ha2 b hb h2.symm
        have hb2a : b2 = a := hentry b2 hb2 a ha h1.symm
        subst ha2b; subst hb2a
        exact hint (Or.inr hint2)

theorem c7_witness :
    (edge_list adjKernel (valid_entries adjKernel [lotA, lotB])).countP
        (fun e => decide (e = sortPair "a" "b")) =
      if adjKernel.intersects 1 2 = true ∨ adjKernel.intersects 2 1 = true then 1 else 0 :=
  (c7_adjacency_graph adjKernel [lotA, lotB] (by decide)).2.2
    ("a", 1) (by decide) ("b", 2) (by decide) (by decide)

/-! Permutation lemmas for C9: the pipeline's grouping of ids does not
depend on the order of the input lot list. -/

theorem flatMap_perm_congr {α β : Type} {l1 l2 : List α} {f1 f2 : α → List β}
    (hl : l1.Perm l2) (hf : ∀ a, (f1 a).Perm (f2 a)) :
    (l1.flatMap f1).Perm (l2.flatMap f2) := by
  have h1 : ∀ (l : List α), (l.flatMap f1).Perm (l.flatMap f2) := by
    intro l
    induction l with
    | nil => exact List.Perm.refl _
    | cons a t ih =>
      rw [List.flatMap_cons, List.flatMap_cons]
      exact (hf a).append ih
  exact (h1 l1).trans (hl.flatMap_right f2)

theorem sjoin_pairs_perm {K : GeomKernel C P D} {e1 e2 : List (String × P)}
    (h : e1.Perm e2) : (sjoin_pairs K e1).Perm (sjoin_pairs K e2) := by
  rw [sjoin_pairs, sjoin_pairs]
  exact flatMap_perm_congr h (fun a => h.filterMap _)

theorem edge_list_eq_of_perm {K : GeomKernel C P D} {e1 e2 : List (String × P)}
    (h : e1.Perm e2) : edge_list K e1 = edge_list K e2 := by
  rw [edge_list, edge_list]
  have hd : (dedupKeepFirst (sjoin_pairs K e1)).Perm (dedupKeepFirst (sjoin_pairs K e2)) :=
    dedupKeepFirst_perm_of_perm (sjoin_pairs_perm h)
  exact List.eq_of_perm_of_sorted
    ((List.perm_insertionSort pairLe _).trans
      (hd.trans (List.perm_insertionSort pairLe _).symm))
    (List.sorted_insertionSort pairLe _)
    (List.sorted_insertionSort pairLe _)

theorem find?_contains_eq {Pg Qg : List (List String)} (hPQ : Pg.Perm Qg)
    (hfl : Pg.flatten.Nodup) (v : String) :
    Pg.find? (fun g => decide (v ∈ g)) = Qg.find? (fun g => decide (v ∈ g)) := by
  cases hfP : Pg.find? (fun g => decide (v ∈ g)) with
  | none =>
    rw [List.find?_eq_none] at hfP
    symm
    rw [List.find?_eq_none]
    intro g hg
    exact hfP g (hPQ.mem_iff.mpr hg)
  | some G =>
    have hGP : G ∈ Pg := List.mem_of_find?_eq_some hfP
    have hvG : v ∈ G := by simpa using List.find?_some hfP
    cases hfQ : Qg.find? (fun g => decide (v ∈ g)) with
    | none =>
      rw [List.find?_eq_none] at hfQ
      exact absurd (by simpa using hvG) (hfQ G (hPQ.subset hGP))
    | some G2 =>
      have hG2P : G2 ∈ Pg := hPQ.mem_iff.mpr (List.mem_of_find?_eq_some hfQ)
      have hvG2 : v ∈ G2 := by simpa using List.find?_some hfQ
      rw [unique_group_of_flatten hfl hGP hG2P hvG hvG2]

theorem mergeGroups_perm {Pg Qg : List (List String)} (hPQ : Pg.Perm Qg)
    (hfl : Pg.flatten.Nodup) (e : String × String) :
    (mergeGroups Pg e).Perm (mergeGroups Qg e) := by
  have hfa := find?_contains_eq hPQ hfl e.1
  have hfb := find?_contains_eq hPQ hfl e.2
  cases hfP : Pg.find? (fun g => decide (e.1 ∈ g)) with
  | none =>
    rw [mergeGroups_eq_of_none_left hfP, mergeGroups_eq_of_none_left (hfP ▸ hfa).symm]
    exact hPQ
  | some ga =>
    cases hfP2 : Pg.find? (fun g => decide (e.2 ∈ g)) with
    | none =>
      rw [mergeGroups_eq_of_none_right hfP hfP2,
        mergeGroups_eq_of_none_right (hfP ▸ hfa).symm (hfP2 ▸ hfb).symm]
      exact hPQ
    | some gb =>
      rw [mergeGroups_eq_of_finds hfP hfP2,
        mergeGroups_eq_of_finds (hfP ▸ hfa).symm (hfP2 ▸ hfb).symm]
      by_cases hgagb : ga = gb
      · rw [if_pos hgagb, if_pos hgagb]
        exact hPQ
      · rw [if_neg hgagb, if_neg hgagb]
        exact (hPQ.filter _).append (List.Perm.refl _)

theorem foldl_mergeGroups_perm {nodes : List String} (hn : nodes.Nodup) :
    ∀ (edges : List (String × String)) {Pg Qg : List (List String)},
      Pg.flatten.Perm nodes → (∀ g ∈ Pg, g ≠ []) → Pg.Perm Qg →
      (edges.foldl mergeGroups Pg).Perm (edges.foldl mergeGroups Qg) := by
  intro edges
  induction edges with
  | nil => intro Pg Qg _ _ hPQ; exact hPQ
  | cons e t ih =>
    intro Pg Qg hfp hne hPQ
    have hfl : Pg.flatten.Nodup := hn.perm hfp.symm
    rcases mergeGroups_inv hn hfp hne e with ⟨hfp', hne'⟩
    exact ih hfp' hne' (mergeGroups_perm hPQ hfl e)

theorem group_mem_hits {nodes : List String} {groups : List (List String)}
    (hfl : groups.flatten.Nodup) (hfp : groups.flatten.Perm nodes)
    (hne : ∀ g ∈ groups, g ≠ []) {G : List String} (hG : G ∈ groups) :
    G ∈ nodes.filterMap (fun v => groups.find? (fun g => decide (v ∈ g))) := by
  obtain ⟨v, hv⟩ : ∃ v, v ∈ G := by
    cases hGnil : G with
    | nil => exact absurd hGnil (hne G hG)
    | cons y t => exact ⟨y, List.mem_cons_self y t⟩
  have hvn : v ∈ nodes := hfp.subset (List.mem_flatten_of_mem hG hv)
  rw [List.mem_filterMap]
  refine ⟨v, hvn, ?_⟩
  cases hf : groups.find? (fun g => decide (v ∈ g)) with
  | none =>
    rw [List.find?_eq_none] at hf
    exact absurd (by simpa using hv) (hf G hG)
  | some G2 =>
    have hG2 : G2 ∈ groups := List.mem_of_find?_eq_some hf
    have hvG2 : v ∈ G2 := by simpa using List.find?_some hf
    rw [unique_group_of_flatten hfl hG2 hG hvG2 hv]

theorem emit_dedup_perm {nodes1 nodes2 : List String}
    {groups1 groups2 : List (List String)}
    (hfl1 : groups1.flatten.Nodup)
    (hfp1 : groups1.flatten.Perm nodes1) (hfp2 : groups2.flatten.Perm nodes2)
    (hne1 : ∀ g ∈ groups1, g ≠ []) (hne2 : ∀ g ∈ groups2, g ≠ [])
    (hG : groups1.Perm groups2) :
    (dedupKeepFirst (nodes1.filterMap
      (fun v => groups1.find? (fun g => decide (v ∈ g))))).Perm
    (dedupKeepFirst (nodes2.filterMap
      (fun v => groups2.find? (fun g => decide (v ∈ g))))) := by
  have hfl2 : groups2.flatten.Nodup := hfl1.perm hG.flatten
  refine (List.perm_ext_iff_of_nodup (nodup_dedupKeepFirst _)
    (nodup_dedupKeepFirst _)).mpr ?_
  intro G
  rw [mem_dedupKeepFirst, mem_dedupKeepFirst]
  constructor
  · intro h
    exact group_mem_hits hfl2 hfp2 hne2 (hG.subset (hits_subset_groups G h))
  · intro h
    exact group_mem_hits hfl1 hfp1 hne1 (hG.symm.subset (hits_subset_groups G h))

theorem valid_pnus_nil_all {K : GeomKernel C P D} {lots : List (Parcel C)}
    (h : valid_pnus K lots = []) :
    ∀ lot ∈ lots, rhino_curve_to_shapely_polygon K lot.region lot.hole_regions = none := by
  intro lot hl
  rw [valid_pnus] at h
  have hent : valid_entries K lots = [] := by
    cases hv : valid_entries K lots with
    | nil => rfl
    | cons a t => rw [hv] at h; cases h
  rw [valid_entries, List.filterMap_eq_nil_iff] at hent
  have hthis := hent lot hl
  cases hconv : rhino_curve_to_shapely_polygon K lot.region lot.hole_regions with
  | none => rfl
  | some p =>
    rw [hconv] at hthis
    exact absurd hthis (by simp)

/-- C9: for every input list of Lots with pairwise-distinct pnu values
and every permutation of it, when both runs return Blocks,
`BlockGenerator.generate` produces the same partition of lot ids into
blocks: the multisets of member-id sets coincide, though the emitted
order may differ. -/
theorem c9_permutation_invariance (K : GeomKernel C P D)
    (parcels1 parcels2 : List (Parcel C)) (bs1 bs2 : List (Block C))
    (hperm : parcels1.Perm parcels2)
    (hnodup : (parcels1.map (fun l => l.pnu)).Nodup)
    (h1 : generate K parcels1 = .ok bs1) (h2 : generate K parcels2 = .ok bs2) :
    (bs1.map (fun b => (member_pnus b).toFinset)).Perm
      (bs2.map (fun b => (member_pnus b).toFinset)) := by
  rw [generate] at h1 h2
  have hpermL : (parcels1.filter (fun q => decide (q.kind = ParcelKind.lot))).Perm
      (parcels2.filter (fun q => decide (q.kind = ParcelKind.lot))) := hperm.filter _
  set L1 := parcels1.filter (fun q => decide (q.kind = ParcelKind.lot)) with hL1
  set L2 := parcels2.filter (fun q => decide (q.kind = ParcelKind.lot)) with hL2
  by_cases hLnil : L1 = []
  · have hLnil2 : L2 = [] := ((hLnil ▸ hpermL : ([] : List (Parcel C)).Perm L2)).nil_eq.symm
    rw [hLnil] at h1
    rw [hLnil2] at h2
    rw [show create_blocks_from_lots K ([] : List (Parcel C)) = .ok [] from rfl] at h1 h2
    injection h1 with hb1
    injection h2 with hb2
    rw [← hb1, ← hb2]
  · by_cases hVnil : valid_pnus K L1 = []
    · have hpermV : (valid_pnus K L1).Perm (valid_pnus K L2) := (hpermL.filterMap _).map _
      have hVnil2 : valid_pnus K L2 = [] :=
        ((hVnil ▸ hpermV : ([] : List String).Perm (valid_pnus K L2))).nil_eq.symm
      have hLnil2 : L2 ≠ [] := by
        intro hc
        exact hLnil ((hc ▸ hpermL : L1.Perm []).eq_nil)
      have hinv1 := valid_pnus_nil_all hVnil
      have hinv2 := valid_pnus_nil_all hVnil2
      rw [create_blocks_fallback hLnil hinv1] at h1
      rw [create_blocks_fallback hLnil2 hinv2] at h2
      have hall1 : ∀ lot ∈ L1, ∃ b, Block.construct K [lot] = .ok b := mapM_ok_forall h1
      have hall2 : ∀ lot ∈ L2, ∃ b, Block.construct K [lot] = .ok b := mapM_ok_forall h2
      rw [mapM_ok_of_forall hall1] at h1
      rw [mapM_ok_of_forall hall2] at h2
      injection h1 with hb1
      injection h2 with hb2
      rw [← hb1, ← hb2]
      exact ((hpermL.filterMap _).map _)
    · have hpermE : (valid_entries K L1).Perm (valid_entries K L2) := hpermL.filterMap _
      have hpermV : (valid_pnus K L1).Perm (valid_pnus K L2) := hpermE.map _
      have hVnil2 : valid_pnus K L2 ≠ [] := by
        intro hc
        exact hVnil (hpermV.trans (hc ▸ List.Perm.refl _)).eq_nil
      rw [create_blocks_main hVnil] at h1
      rw [create_blocks_main hVnil2] at h2
      have hedge : edge_list K (valid_entries K L2) = edge_list K (valid_entries K L1) :=
        edge_list_eq_of_perm hpermE.symm
      rw [hedge] at h2
      set N1 := dedupKeepFirst (valid_pnus K L1) with hN1
      set N2 := dedupKeepFirst (valid_pnus K L2) with hN2
      set E := edge_list K (valid_entries K L1) with hE
      have hpermN : N1.Perm N2 := dedupKeepFirst_perm_of_perm hpermV
      have hn1 : N1.Nodup := nodup_dedupKeepFirst _
      have hn2 : N2.Nodup := nodup_dedupKeepFirst _
      have hinit1 : ((N1.map (fun q => [q])).flatten).Perm N1 := by
        rw [flatten_map_singleton]
      have hinit2 : ((N2.map (fun q => [q])).flatten).Perm N2 := by
        rw [flatten_map_singleton]
      have hinitne1 : ∀ g ∈ N1.map (fun q => [q]), g ≠ [] := by
        intro g hg
        rcases List.mem_map.mp hg with ⟨q, _, rfl⟩
        simp
      have hinitne2 : ∀ g ∈ N2.map (fun q => [q]), g ≠ [] := by
        intro g hg
        rcases List.mem_map.mp hg with ⟨q, _, rfl⟩
        simp
      set G1 := E.foldl mergeGroups (N1.map (fun q => [q])) with hG1
      set G2 := E.foldl mergeGroups (N2.map (fun q => [q])) with hG2
      rcases foldl_mergeGroups_inv hn1 E hinit1 hinitne1 with ⟨hfp1, hne1⟩
      rcases foldl_mergeGroups_inv hn2 E hinit2 hinitne2 with ⟨hfp2, hne2⟩
      have hfl1 : G1.flatten.Nodup := hn1.perm hfp1.symm
      have hG12 : G1.Perm G2 :=
        foldl_mergeGroups_perm hn1 E hinit1 hinitne1 (hpermN.map _)
      have hD := emit_dedup_perm hfl1 hfp1 hfp2 hne1 hne2 hG12
      have hbs1 : bs1.map (fun b => (member_pnus b).toFinset) =
          (connected_components N1 E).map (fun cl => cl.toFinset) := by
        apply mapM_ok_map h1
        intro grp hgrp b hcb
        have hmp : member_pnus b = grp := by
          rw [member_pnus, construct_lots hcb]
          exact filterMap_lot_map_get_pnus (fun q hq =>
            valid_pnus_subset q (mem_dedupKeepFirst.mp (connected_components_subset hgrp q hq)))
        rw [hmp]
      have hbs2 : bs2.map (fun b => (member_pnus b).toFinset) =
          (connected_components N2 E).map (fun cl => cl.toFinset) := by
        apply mapM_ok_map h2
        intro grp hgrp b hcb
        have hmp : member_pnus b = grp := by
          rw [member_pnus, construct_lots hcb]
          exact filterMap_lot_map_get_pnus (fun q hq =>
            valid_pnus_subset q (mem_dedupKeepFirst.mp (connected_components_subset hgrp q hq)))
        rw [hmp]
      have hcl1 : (connected_components N1 E).map (fun cl => cl.toFinset) =
          (dedupKeepFirst (N1.filterMap
            (fun v => G1.find? (fun g => decide (v ∈ g))))).map (fun G => G.toFinset) := by
        rw [show connected_components N1 E = emitClusters N1 G1 from rfl, emitClusters,
          List.map_map]
        apply List.map_congr_left
        intro G hG
        apply Finset.ext
        intro x
        simp only [Function.comp, List.mem_toFinset, List.mem_filter, decide_eq_true_eq]
        constructor
        · intro hx
          exact hx.2
        · intro hx
          refine ⟨?_, hx⟩
          have hGg : G ∈ G1 := hits_subset_groups G (mem_dedupKeepFirst.mp hG)
          exact hfp1.subset (List.mem_flatten_of_mem hGg hx)
      have hcl2 : (connected_components N2 E).map (fun cl => cl.toFinset) =
          (dedupKeepFirst (N2.filterMap
            (fun v => G2.find? (fun g => decide (v ∈ g))))).map (fun G => G.toFinset) := by
        rw [show connected_components N2 E = emitClusters N2 G2 from rfl, emitClusters,
          List.map_map]
        apply List.map_congr_left
        intro G hG
        apply Finset.ext
        intro x
        simp only [Function.comp, List.mem_toFinset, List.mem_filter, decide_eq_true_eq]
        constructor
        · intro hx
          exact hx.2
        · intro hx
          refine ⟨?_, hx⟩
          have hGg : G ∈ G2 := hits_subset_groups G (mem_dedupKeepFirst.mp hG)
          exact hfp2.subset (List.mem_flatten_of_mem hGg hx)
      rw [hbs1, hbs2, hcl1, hcl2]
      exact hD.map _

theorem c9_witness :
    ([Block.mk [lotA] 1 false, Block.mk [lotB] 2 false].map
      (fun b => (member_pnus b).toFinset)).Perm
    ([Block.mk [lotB] 2 false, Block.mk [lotA] 1 false].map
      (fun b => (member_pnus b).toFinset)) :=
  c9_permutation_invariance isolatedKernel [lotA, lotB] [lotB, lotA]
    [Block.mk [lotA] 1 false, Block.mk [lotB] 2 false]
    [Block.mk [lotB] 2 false, Block.mk [lotA] 1 false]
    (List.Perm.swap lotB lotA []) (by decide) rfl rfl

end ParcelLayout
